import Mathlib

/-
Verification of the import-rewriting scripts in frontend/scripts.

The scripts rewrite module specifiers in import statements of source files
using per-rule regular expressions of a fixed shape, applied with a sequential
search-and-substitute loop over a rename table.  This development embeds the
relevant functions shallowly:

- Each regex pattern of update-imports.py and update-feature-imports.py has
  the shape INTRO QUOTE MID KEY QUOTE, where INTRO is the literal "from"
  followed by one-or-more whitespace, or the literal "import(", and MID is
  the literal "@/components/" or one-or-more dots followed by a slash.
  The pattern family is modelled by matchPat; Python re.sub is modelled by
  subPy (leftmost match, replace all, continue after each match), and
  re.search by hasMatchB.

- fix-moved-imports.py uses two further pattern shapes (named-import lists
  and default imports); those are modelled by matchNamed and matchDefault.

- Text is List Char; tables are association lists in source order, matching
  Python dict insertion-order iteration.
-/

namespace ImportRewrite

abbrev Str := List Char

/-- Python ASCII whitespace class used by the regex escape for whitespace. -/
def isWsChar (c : Char) : Bool :=
  c == ' ' || c == '\t' || c == '\n' || c == '\r' || c == '\x0b' || c == '\x0c'

/-- The two quote characters accepted by the character class in the patterns. -/
def isQuoteChar (c : Char) : Bool :=
  c == '\x27' || c == '"'

/-- Characters allowed in table keys and values for the stability lemmas:
no whitespace, no quotes, no opening parenthesis. -/
def charOKb (c : Char) : Bool :=
  !(isWsChar c) && !(isQuoteChar c) && !(c == '(')

def fromLit : Str := "from".toList

def dynLit : Str := "import(".toList

def aliasLit : Str := "@/components/".toList

inductive IntroKind
  | fromKw
  | dynImp
deriving DecidableEq

inductive MidKind
  | aliasMid
  | relMid
deriving DecidableEq

structure Shape where
  intro : IntroKind
  mid : MidKind
deriving DecidableEq

/-- Match the opening part of a pattern: either the literal "from" followed by
one-or-more whitespace characters, or the literal "import(".  On success the
consumed characters and the remaining input are returned. -/
def matchIntro : IntroKind → Str → Option (Str × Str)
  | .fromKw, s =>
    if fromLit.isPrefixOf s then
      if ((s.drop fromLit.length).takeWhile isWsChar).isEmpty then none
      else some (fromLit ++ (s.drop fromLit.length).takeWhile isWsChar,
        (s.drop fromLit.length).dropWhile isWsChar)
    else none
  | .dynImp, s =>
    if dynLit.isPrefixOf s then some (dynLit, s.drop dynLit.length) else none

/-- Match the path prefix inside the specifier: the literal "@/components/",
or one-or-more dots followed by a slash. -/
def matchMid : MidKind → Str → Option (Str × Str)
  | .aliasMid, s =>
    if aliasLit.isPrefixOf s then some (aliasLit, s.drop aliasLit.length) else none
  | .relMid, s =>
    if (s.takeWhile (fun c => c == '.')).isEmpty then none
    else
      match s.dropWhile (fun c => c == '.') with
      | [] => none
      | c :: r =>
        if c == '/' then some (s.takeWhile (fun c => c == '.') ++ ['/'], r) else none

/-- Match one full pattern occurrence at the head of the input.  On success
return the captured group before the key, the closing quote, and the rest of
the input after the match.  This is the translation of the regex family
(INTRO QUOTE MID) KEY (QUOTE) used by the two updater scripts; the whitespace
and dot repetitions are deterministic because the character that must follow
them can never extend them.  The scripts splice the key into the pattern
unescaped, so this literal-key matcher agrees with the spliced regex exactly
when every character of the key stands for itself in a regular expression
(see reLitCharb); both shipped tables lie in that class. -/
def matchPat (sh : Shape) (key : Str) (s : Str) : Option (Str × Char × Str) :=
  match matchIntro sh.intro s with
  | none => none
  | some (i1, r1) =>
    match r1 with
    | [] => none
    | q1 :: r2 =>
      if isQuoteChar q1 then
        match matchMid sh.mid r2 with
        | none => none
        | some (m1, r3) =>
          if key.isPrefixOf r3 then
            match r3.drop key.length with
            | [] => none
            | q2 :: rest => if isQuoteChar q2 then some (i1 ++ q1 :: m1, q2, rest) else none
          else none
      else none

/-- Structural description of a successful intro match. -/
def IntroOK : IntroKind → Str → Prop
  | .fromKw, l => ∃ ws, l = fromLit ++ ws ∧ ws ≠ [] ∧ ∀ c ∈ ws, isWsChar c = true
  | .dynImp, l => l = dynLit

/-- Structural description of a successful mid match. -/
def MidOK : MidKind → Str → Prop
  | .aliasMid, l => l = aliasLit
  | .relMid, l => ∃ ds, l = ds ++ ['/'] ∧ ds ≠ [] ∧ ∀ c ∈ ds, c = '.'

/-- Structural description of the captured group and closing quote of a
successful pattern match. -/
def GoodG (sh : Shape) (g : Str) (q2 : Char) : Prop :=
  ∃ i1 q1 m1, g = i1 ++ q1 :: m1 ∧ IntroOK sh.intro i1 ∧ isQuoteChar q1 = true ∧
    MidOK sh.mid m1 ∧ isQuoteChar q2 = true

/-- Fuel-indexed worker for the re.sub model: scan left to right, at each
position try the pattern; on a match emit the captured group, the replacement
value and the closing quote, and continue after the match; otherwise copy one
character.  The fuel is only a termination device; subPy supplies enough. -/
def subAux (sh : Shape) (key new : Str) : Nat → Str → Str
  | 0, s => s
  | fuel + 1, s =>
    match matchPat sh key s with
    | some (g, q, rest) => g ++ new ++ q :: subAux sh key new fuel rest
    | none =>
      match s with
      | [] => []
      | c :: t => c :: subAux sh key new fuel t

/-- Model of re.sub for one pattern of the updater scripts: replace every
non-overlapping occurrence, leftmost first, by group1 ++ new ++ group2. -/
def subPy (sh : Shape) (key new s : Str) : Str :=
  subAux sh key new s.length s

/-- Model of re.search for one pattern: does the pattern match anywhere? -/
def hasMatchB (sh : Shape) (key : Str) : Str → Bool
  | [] => false
  | c :: t => (matchPat sh key (c :: t)).isSome || hasMatchB sh key t

/-- Table keys must be nonempty and stay inside the safe character set. -/
def keyOKb (k : Str) : Bool := !(k.isEmpty) && k.all charOKb

/-- Table values must stay inside the safe character set. -/
def valOKb (v : Str) : Bool := v.all charOKb

abbrev Table := List (Str × Str)

/-- The combinatorial side condition of the stability results over the
literal-key matcher: every key is a nonempty string over the safe character
set, every value is over the safe character set, and no key equals any value
(so a rewritten specifier matches no rule).  On its own this speaks about
the literal model only; the condition that also makes the literal model
agree with the spliced regexes of the scripts is tableSafe below. -/
def tableOK (t : Table) : Bool :=
  t.all (fun r => keyOKb r.1 && valOKb r.2) &&
  t.all (fun r => t.all (fun r2 => !(r.1 == r2.2)))

/-- Characters that stand for themselves both in a regular expression and in
a re.sub replacement template: ASCII letters, digits, dash and slash.  The
scripts splice table keys and values into their patterns and replacement
strings unescaped, so only over this class does the literal-key model agree
with the program; a key holding a regex metacharacter (a dot, say) matches
more texts in the program than the literal key does, and idempotence can
then fail even under tableOK. -/
def reLitCharb (c : Char) : Bool :=
  ('a' ≤ c && c ≤ 'z') || ('A' ≤ c && c ≤ 'Z') || ('0' ≤ c && c ≤ '9') ||
    c == '-' || c == '/'

/-- Sufficient condition for idempotence of the updaters: the combinatorial
condition tableOK together with every key and value using only regex-literal
characters, so that the unescaped splicing in the scripts matches the keys
literally.  Both shipped tables satisfy it by computation. -/
def tableSafe (t : Table) : Bool :=
  tableOK t && t.all (fun r => r.1.all reLitCharb && r.2.all reLitCharb)

/-- The four regex shapes of update-imports.py, in source order; the first
three are also the shapes of update-feature-imports.py. -/
def sh1 : Shape := ⟨IntroKind.fromKw, MidKind.aliasMid⟩

def sh2 : Shape := ⟨IntroKind.fromKw, MidKind.relMid⟩

def sh3 : Shape := ⟨IntroKind.dynImp, MidKind.aliasMid⟩

def sh4 : Shape := ⟨IntroKind.dynImp, MidKind.relMid⟩

namespace UpdateImports

/-- One pattern step of update_file in update-imports.py:
if re.search finds the pattern, re.sub is applied and the modified flag set. -/
def applyPattern (sh : Shape) (old new : Str) (cm : Str × Bool) : Str × Bool :=
  if hasMatchB sh old cm.1 then (subPy sh old new cm.1, true) else cm

/-- One rule of update_file in update-imports.py: its four patterns applied
in source order. -/
def applyRule (old new : Str) (cm : Str × Bool) : Str × Bool :=
  applyPattern sh4 old new (applyPattern sh3 old new
    (applyPattern sh2 old new (applyPattern sh1 old new cm)))

/-- update_file of update-imports.py: iterate the rename table in insertion
order over the file content; the Bool is the modified flag (the file is
written back exactly when it is true). -/
def update_file (table : Table) (content : Str) : Str × Bool :=
  table.foldl (fun cm r => applyRule r.1 r.2 cm) (content, false)

end UpdateImports

namespace UpdateFeatureImports

/-- One pattern step of update_file in update-feature-imports.py: re.sub is
applied; if the content changed, the per-file counter increases by one
(counting rule-pattern combinations, not occurrences). -/
def applyPattern (sh : Shape) (old new : Str) (cn : Str × Nat) : Str × Nat :=
  if subPy sh old new cn.1 == cn.1 then cn else (subPy sh old new cn.1, cn.2 + 1)

/-- One rule of update_file in update-feature-imports.py: its three patterns
(absolute import, relative import, dynamic import) in source order. -/
def applyRule (old new : Str) (cn : Str × Nat) : Str × Nat :=
  applyPattern sh3 old new (applyPattern sh2 old new (applyPattern sh1 old new cn))

/-- update_file of update-feature-imports.py: iterate the path table in
insertion order; the file is written back (and the count reported) only when
the final content differs from the original, otherwise 0 is returned. -/
def update_file (table : Table) (content : Str) : Str × Nat :=
  if (table.foldl (fun cn r => applyRule r.1 r.2 cn) (content, 0)).1 == content then
    (content, 0)
  else
    table.foldl (fun cn r => applyRule r.1 r.2 cn) (content, 0)

end UpdateFeatureImports

namespace UpdateImports

/-- The RENAMES table of update-imports.py, in source (insertion) order. -/
def RENAMES : Table := [
  ("AIAssistantFAB".toList, "ai-assistant-fab".toList),
  ("AIAssistantPanel".toList, "ai-assistant-panel".toList),
  ("AIChat".toList, "ai-chat".toList),
  ("ChallengeCard".toList, "challenge-card".toList),
  ("ChallengeForm".toList, "challenge-form".toList),
  ("ChallengeHistory".toList, "challenge-history".toList),
  ("ChallengePanel".toList, "challenge-panel".toList),
  ("ChallengeVotingWidget".toList, "challenge-voting-widget".toList),
  ("Chat".toList, "in-graph-chat".toList),
  ("ClusterView".toList, "cluster-view".toList),
  ("CollaborationPanel".toList, "collaboration-panel".toList),
  ("CommandMenu".toList, "command-menu".toList),
  ("ConsensusVotingWidget".toList, "consensus-voting-widget".toList),
  ("ContextMenu".toList, "context-menu".toList),
  ("CustomNode".toList, "custom-node".toList),
  ("EnhancedGraphCanvas".toList, "enhanced-graph-canvas".toList),
  ("ErrorBoundary".toList, "error-boundary".toList),
  ("FileViewerExample".toList, "file-viewer-example".toList),
  ("FileViewerSidebar".toList, "file-viewer-sidebar".toList),
  ("FilterPanel".toList, "filter-panel".toList),
  ("GraphCanvas".toList, "graph-canvas".toList),
  ("GraphEdge".toList, "graph-edge".toList),
  ("GraphNode".toList, "graph-node".toList),
  ("GraphSidebar".toList, "graph-sidebar".toList),
  ("LayoutControls".toList, "layout-controls".toList),
  ("LoadingStates".toList, "loading-states".toList),
  ("LoginDialog".toList, "login-dialog".toList),
  ("MethodologyProgressPanel".toList, "methodology-progress-panel".toList),
  ("MethodologySelector".toList, "methodology-selector".toList),
  ("Navigation".toList, "navigation".toList),
  ("NotificationBell".toList, "notification-bell".toList),
  ("PerformanceMonitor".toList, "performance-monitor".toList),
  ("PromotionEligibilityBadge".toList, "promotion-eligibility-badge".toList),
  ("PromotionEligibilityDashboard".toList, "promotion-eligibility-dashboard".toList),
  ("PromotionLedgerTable".toList, "promotion-ledger-table".toList),
  ("RemoteCursor".toList, "remote-cursor".toList),
  ("ReputationBadge".toList, "reputation-badge".toList),
  ("ThreadedComments".toList, "threaded-comments".toList),
  ("TimelineView".toList, "timeline-view".toList),
  ("VeracityBadge".toList, "veracity-badge".toList),
  ("VeracityBreakdown".toList, "veracity-breakdown".toList),
  ("VeracityIndicator".toList, "veracity-indicator".toList),
  ("VeracityPanel".toList, "veracity-badge".toList),
  ("VeracityTimeline".toList, "veracity-timeline".toList),
  ("VisualizationControls".toList, "visualization-controls".toList)]

end UpdateImports

namespace UpdateFeatureImports

/-- The PATH_UPDATES table of update-feature-imports.py, in source order. -/
def PATH_UPDATES : Table := [
  ("ai-assistant-fab".toList, "ai-assistant/ai-assistant-fab".toList),
  ("ai-assistant-panel".toList, "ai-assistant/ai-assistant-panel".toList),
  ("ai-chat".toList, "ai-assistant/ai-chat".toList),
  ("credibility-badge".toList, "credibility/credibility-badge".toList),
  ("veracity-badge".toList, "credibility/veracity-badge".toList),
  ("veracity-panel".toList, "credibility/veracity-panel".toList),
  ("veracity-timeline".toList, "credibility/veracity-timeline".toList),
  ("veracity-breakdown".toList, "credibility/veracity-breakdown".toList),
  ("veracity-indicator".toList, "credibility/veracity-indicator".toList),
  ("promotion-eligibility-badge".toList, "promotion/promotion-eligibility-badge".toList),
  ("promotion-eligibility-dashboard".toList,
    "promotion/promotion-eligibility-dashboard".toList),
  ("consensus-voting-widget".toList, "promotion/consensus-voting-widget".toList),
  ("promotion-ledger-table".toList, "promotion/promotion-ledger-table".toList),
  ("methodology-progress-panel".toList, "promotion/methodology-progress-panel".toList),
  ("media-upload-dialog".toList, "media/media-upload-dialog".toList),
  ("media-processing-status".toList, "media/media-processing-status".toList),
  ("file-upload-button".toList, "media/file-upload-button".toList),
  ("file-attachment-list".toList, "media/file-attachment-list".toList),
  ("media-library-integration".toList, "media/media-library-integration".toList),
  ("universal-file-viewer".toList, "media/universal-file-viewer".toList),
  ("file-viewer-example".toList, "media/file-viewer-example".toList),
  ("file-viewer-sidebar".toList, "media/file-viewer-sidebar".toList),
  ("collaboration-panel".toList, "collaboration/collaboration-panel".toList),
  ("remote-cursor".toList, "collaboration/remote-cursor".toList),
  ("in-graph-chat".toList, "collaboration/in-graph-chat".toList),
  ("chat-sidebar".toList, "collaboration/chat-sidebar".toList),
  ("chat-input".toList, "collaboration/chat-input".toList),
  ("chat-message".toList, "collaboration/chat-message".toList),
  ("threaded-comments".toList, "collaboration/threaded-comments".toList),
  ("activity-feed".toList, "collaboration/activity-feed".toList),
  ("activity-post".toList, "collaboration/activity-post".toList),
  ("post-composer".toList, "collaboration/post-composer".toList),
  ("cluster-view".toList, "visualization/cluster-view".toList),
  ("timeline-view".toList, "visualization/timeline-view".toList),
  ("visualization-controls".toList, "visualization/visualization-controls".toList),
  ("layout-controls".toList, "visualization/layout-controls".toList),
  ("methodology-selector".toList, "methodology/methodology-selector".toList),
  ("badge-system".toList, "shared/badge-system".toList),
  ("theme-toggle".toList, "shared/theme-toggle".toList),
  ("logo".toList, "shared/logo".toList),
  ("loading-spinner".toList, "shared/loading-spinner".toList),
  ("error-boundary".toList, "shared/error-boundary".toList),
  ("keyboard-shortcuts".toList, "shared/keyboard-shortcuts".toList),
  ("search-bar".toList, "shared/search-bar".toList),
  ("filter-panel".toList, "shared/filter-panel".toList),
  ("sort-controls".toList, "shared/sort-controls".toList),
  ("pagination".toList, "shared/pagination".toList),
  ("confirmation-dialog".toList, "shared/confirmation-dialog".toList),
  ("node-form".toList, "forms/node-form".toList),
  ("edge-form".toList, "forms/edge-form".toList),
  ("evidence-form".toList, "forms/evidence-form".toList),
  ("citation-form".toList, "forms/citation-form".toList),
  ("hypothesis-form".toList, "forms/hypothesis-form".toList),
  ("inquiry-form".toList, "forms/inquiry-form".toList),
  ("amendment-form".toList, "forms/amendment-form".toList),
  ("challenge-form".toList, "forms/challenge-form".toList),
  ("enriched-content".toList, "content/enriched-content".toList),
  ("markdown-renderer".toList, "content/markdown-renderer".toList),
  ("article-with-badges".toList, "content/article-with-badges".toList)]

end UpdateFeatureImports

/-- The IO fate of one file of a batch.  ok: the read and any write succeed.
readFail: an exception is raised before any byte is written — during the
read, or when the later open of the file for writing itself fails — so the
file keeps its bytes.  writeFail n: a write was due and open(filepath,
followed by the write mode) succeeded, truncating the file on the spot, but
the write delivered only the first n characters of the new content before
raising.  In every failing case the try/except of update_file catches the
exception, update_file returns the not-updated value, and the driver loop
moves on to the next file. -/
inductive FileEvent
  | ok
  | readFail
  | writeFail (n : Nat)
deriving DecidableEq

/-- A batch in which every file is read and written without incident. -/
def okBatch (cs : List Str) : List (Str × FileEvent) :=
  cs.map (fun c => (c, FileEvent.ok))

namespace UpdateImports

/-- One file of the batch of update-imports.py: the bytes the file holds
before the run, together with its IO fate.  On ok, the rewrite is computed
and written back exactly when the modified flag is set (when it is not set,
the content variable was never reassigned, so disk and variable agree).  On
readFail the file keeps its bytes.  On writeFail n the flag was set, the
open in write mode truncated the file, and only the first n characters of
the rewritten content reached it; the exception is caught and update_file
returns False, so the file is not counted.  The pair is (bytes the file
holds afterwards, return value of update_file). -/
def process_file (table : Table) : Str × FileEvent → Str × Bool
  | (c, FileEvent.ok) => update_file table c
  | (c, FileEvent.readFail) => (c, false)
  | (c, FileEvent.writeFail n) =>
    if (update_file table c).2 then ((update_file table c).1.take n, false)
    else (c, false)

/-- The driver loop of update-imports.py main: process every file in order,
counting the files reported updated. -/
def main_run (table : Table) : List (Str × FileEvent) → List Str × Nat
  | [] => ([], 0)
  | f :: fs =>
    ((process_file table f).1 :: (main_run table fs).1,
      (if (process_file table f).2 then 1 else 0) + (main_run table fs).2)

end UpdateImports

def lbrace : Char := Char.ofNat 123

def rbrace : Char := Char.ofNat 125

def squote : Char := Char.ofNat 39

/-- Python str.split(sep): splits on every separator, preserving empty
pieces; the empty string gives one empty piece. -/
def pySplit (sep : Char) : Str → List Str
  | [] => [[]]
  | c :: t =>
    if c == sep then [] :: pySplit sep t
    else
      match pySplit sep t with
      | [] => [[c]]
      | h :: r => (c :: h) :: r

/-- Python str.capitalize (ASCII): first character uppercased, the rest
lowercased. -/
def pyCapitalize : Str → Str
  | [] => []
  | c :: t => c.toUpper :: t.map Char.toLower

namespace FixMovedImports

/-- The binding-name derivation used by fix-moved-imports.py and
fix-remaining-imports.py: split the stem on dashes, capitalize each piece,
concatenate. -/
def pascal_name (component : Str) : Str :=
  ((pySplit '-' component).map pyCapitalize).flatten

/-- old_path.split('/')[-1]. -/
def last_segment (path : Str) : Str := (pySplit '/' path).getLastD []

/-- Does p occur as a contiguous substring? -/
def containsSub (p : Str) : Str → Bool
  | [] => p.isPrefixOf []
  | c :: t => p.isPrefixOf (c :: t) || containsSub p t

/-- Deterministic translation of the named-import regex of
fix-moved-imports.py: import, whitespace, an open brace, optional whitespace,
then everything up to the first closing brace is the captured binding list
(the leading whitespace is stripped by the greedy whitespace star, the
trailing part stays in the capture), which must contain the pascal name as a
substring; then the closing brace, whitespace, from, whitespace, a quote, the
escaped old path and a quote.  Returns the captured group and the rest of the
input after the match. -/
def matchNamed (pascal oldPath : Str) (s : Str) : Option (Str × Str) :=
  if "import".toList.isPrefixOf s then
    if ((s.drop 6).takeWhile isWsChar).isEmpty then none
    else
      match (s.drop 6).dropWhile isWsChar with
      | [] => none
      | c :: r2 =>
        if c == lbrace then
          if containsSub pascal ((r2.dropWhile isWsChar).takeWhile (fun x => !(x == rbrace)))
          then
            match (r2.dropWhile isWsChar).dropWhile (fun x => !(x == rbrace)) with
            | [] => none
            | _ :: r4 =>
              if (r4.takeWhile isWsChar).isEmpty then none
              else
                if "from".toList.isPrefixOf (r4.dropWhile isWsChar) then
                  if (((r4.dropWhile isWsChar).drop 4).takeWhile isWsChar).isEmpty then none
                  else
                    match ((r4.dropWhile isWsChar).drop 4).dropWhile isWsChar with
                    | [] => none
                    | q1 :: r7 =>
                      if isQuoteChar q1 then
                        if oldPath.isPrefixOf r7 then
                          match r7.drop oldPath.length with
                          | [] => none
                          | q2 :: r8 =>
                            if isQuoteChar q2 then
                              some ((r2.dropWhile isWsChar).takeWhile
                                (fun x => !(x == rbrace)), r8)
                            else none
                        else none
                      else none
                else none
          else none
        else none
  else none

/-- The replacement template of the named-import pattern: the word
"import", space, open brace, space, the captured group, space, close brace,
space, from, space, a single quote, the new path, a single quote. -/
def namedRepl (inner newPath : Str) : Str :=
  "import ".toList ++ (lbrace :: ' ' :: inner) ++ (' ' :: rbrace :: " from ".toList) ++
    (squote :: newPath) ++ [squote]

/-- Deterministic translation of the default-import regex of
fix-moved-imports.py: import, whitespace, the pascal name, whitespace, from,
whitespace, a quote, the escaped old path and a quote. -/
def matchDefault (pascal oldPath : Str) (s : Str) : Option Str :=
  if "import".toList.isPrefixOf s then
    if ((s.drop 6).takeWhile isWsChar).isEmpty then none
    else
      if pascal.isPrefixOf ((s.drop 6).dropWhile isWsChar) then
        if ((((s.drop 6).dropWhile isWsChar).drop pascal.length).takeWhile isWsChar).isEmpty
        then none
        else
          if "from".toList.isPrefixOf
            ((((s.drop 6).dropWhile isWsChar).drop pascal.length).dropWhile isWsChar) then
            if ((((((s.drop 6).dropWhile isWsChar).drop pascal.length).dropWhile
                isWsChar).drop 4).takeWhile isWsChar).isEmpty then none
            else
              match (((((s.drop 6).dropWhile isWsChar).drop pascal.length).dropWhile
                  isWsChar).drop 4).dropWhile isWsChar with
              | [] => none
              | q1 :: r7 =>
                if isQuoteChar q1 then
                  if oldPath.isPrefixOf r7 then
                    match r7.drop oldPath.length with
                    | [] => none
                    | q2 :: r8 => if isQuoteChar q2 then some r8 else none
                  else none
                else none
          else none
      else none
  else none

/-- The replacement template of the default-import pattern. -/
def defaultRepl (pascal newPath : Str) : Str :=
  "import ".toList ++ pascal ++ " from ".toList ++ (squote :: newPath) ++ [squote]

/-- Fuel-indexed re.sub scanner over an arbitrary matcher returning the full
replacement text; the fuel (the input length) is sufficient because every
match consumes at least one character. -/
def subScanF (f : Str → Option (Str × Str)) : Nat → Str → Str
  | 0, s => s
  | fuel + 1, s =>
    match f s with
    | some (rep, rest) => rep ++ subScanF f fuel rest
    | none =>
      match s with
      | [] => []
      | c :: t => c :: subScanF f fuel t

/-- re.sub for the named-import pattern. -/
def namedSub (pascal oldPath newPath s : Str) : Str :=
  subScanF (fun s2 => (matchNamed pascal oldPath s2).map
    (fun pr => (namedRepl pr.1 newPath, pr.2))) s.length s

/-- re.sub for the default-import pattern. -/
def defaultSub (pascal oldPath newPath s : Str) : Str :=
  subScanF (fun s2 => (matchDefault pascal oldPath s2).map
    (fun rest => (defaultRepl pascal newPath, rest))) s.length s

/-- The IMPORT_FIXES table of fix-moved-imports.py, in source order. -/
def IMPORT_FIXES : Table := [
  ("@/components/challenge-card".toList, "@/components/challenges".toList),
  ("@/components/challenge-form".toList, "@/components/challenges".toList),
  ("@/components/challenge-history".toList, "@/components/challenges".toList),
  ("@/components/challenge-panel".toList, "@/components/challenges".toList),
  ("@/components/challenge-voting-widget".toList, "@/components/challenges".toList),
  ("@/components/enhanced-graph-canvas".toList,
    "@/components/graph/enhanced-graph-canvas".toList),
  ("@/components/custom-node".toList, "@/components/graph/custom-node".toList),
  ("@/components/context-panel".toList, "@/components/panels".toList),
  ("@/components/filter-panel".toList, "@/components/panels".toList),
  ("@/components/graph-sidebar".toList, "@/components/panels".toList),
  ("@/components/reputation-badge".toList, "@/components/credibility".toList),
  ("@/components/providers".toList, "@/components/layout/providers".toList),
  ("@/components/theme-provider".toList, "@/components/layout/theme-provider".toList)]

/-- update_file of fix-moved-imports.py: per rule, derive the pascal binding
name from the last path segment, apply the named-import substitution and then
the default-import substitution; write back (and report True) only when the
content changed. -/
def update_file (table : Table) (content : Str) : Str × Bool :=
  if (table.foldl (fun c r =>
      defaultSub (pascal_name (last_segment r.1)) r.1 r.2
        (namedSub (pascal_name (last_segment r.1)) r.1 r.2 c)) content) == content then
    (content, false)
  else
    (table.foldl (fun c r =>
      defaultSub (pascal_name (last_segment r.1)) r.1 r.2
        (namedSub (pascal_name (last_segment r.1)) r.1 r.2 c)) content, true)

end FixMovedImports

namespace UpdateFeatureImports

/-- One file of the feature-path batch of update-feature-imports.py, with
its IO fate as in UpdateImports.process_file: the script writes exactly when
the final content differs from the original, via open in write mode, which
truncates before the write; a failing write therefore leaves the first n
characters of the rewritten content, while a failure before any write
leaves the file untouched; every exception is caught and reported as
count 0. -/
def process_file (table : Table) : Str × FileEvent → Str × Nat
  | (c, FileEvent.ok) => update_file table c
  | (c, FileEvent.readFail) => (c, 0)
  | (c, FileEvent.writeFail n) =>
    if (update_file table c).1 == c then (c, 0)
    else ((update_file table c).1.take n, 0)

/-- The driver loop of update-feature-imports.py main: returns the new file
states, the number of files updated, and the total of per-file counts. -/
def main_run (table : Table) : List (Str × FileEvent) → List Str × Nat × Nat
  | [] => ([], 0, 0)
  | f :: fs =>
    ((process_file table f).1 :: (main_run table fs).1,
      (if 0 < (process_file table f).2 then 1 else 0) + (main_run table fs).2.1,
      (process_file table f).2 + (main_run table fs).2.2)

end UpdateFeatureImports

/-- Count of (possibly overlapping) occurrences of a pattern string. -/
def countOcc (p : Str) : Str → Nat
  | [] => 0
  | c :: t => (if p.isPrefixOf (c :: t) then 1 else 0) + countOcc p t

/-- A chained rename table: the rule for the intermediate name Bb is listed
before the rule producing it, so a second run still finds work to do. -/
def chainTable : Table := [("Bb".toList, "Cc".toList), ("Aa".toList, "Bb".toList)]

def chainContent : Str := "from \x27@/components/Aa\x27".toList

/-- One assignment of a Python dict construction: a repeated key keeps its
first position but the later value overwrites the earlier one. -/
def dictInsert (t : Table) (k v : Str) : Table :=
  if t.any (fun r => r.1 == k) then
    t.map (fun r => if r.1 == k then (r.1, v) else r)
  else t ++ [(k, v)]

/-- Python dict-literal construction from a written list of pairs: the pairs
are inserted left to right, so of two rules written with the same key only
the last survives into the table the scripts iterate. -/
def pyDict (ps : List (Str × Str)) : Table :=
  ps.foldl (fun t r => dictInsert t r.1 r.2) []

/-- Two rules written with the same old key but different replacement
targets, as they would appear in the RENAMES dict literal. -/
def dupPairs : List (Str × Str) :=
  [("Xx".toList, "aa".toList), ("Xx".toList, "bb".toList)]

def dupContent : Str := "from \x27@/components/Xx\x27".toList

def dupResultLast : Str := "from \x27@/components/bb\x27".toList

def c2input : Str :=
  "import \x7b ChallengeCard \x7d from \x27@/components/challenge-card\x27".toList

def c2claimed : Str :=
  "import \x7b ChallengeCard \x7d from \x27@/components/challenges\x27".toList

def c2actual : Str :=
  "import \x7b ChallengeCard  \x7d from \x27@/components/challenges\x27".toList

def c4input : Str :=
  "import \x7b ChallengeCard, FilterPanel \x7d from \x27@/components/challenge-card\x27".toList

def c4output : Str :=
  "import \x7b ChallengeCard, FilterPanel  \x7d from \x27@/components/challenges\x27".toList

def c5input : Str := "// moved: see @/components/challenge-card for history\n".toList

def c6content : Str := "from \x27@/components/ChallengeCard\x27".toList

def c10input : Str :=
  "from \x27@/components/logo\x27\nfrom \x27@/components/logo\x27".toList

def c10output : Str :=
  "from \x27@/components/shared/logo\x27\nfrom \x27@/components/shared/logo\x27".toList

theorem takeWhile_all_append (p : Char → Bool) (w : Str) (x : Char) (z : Str)
    (hw : ∀ c ∈ w, p c = true) (hx : p x = false) :
    (w ++ x :: z).takeWhile p = w ∧ (w ++ x :: z).dropWhile p = x :: z := by
  induction w with
  | nil => simp [List.takeWhile_cons, List.dropWhile_cons, hx]
  | cons a w ih =>
    have ha : p a = true := hw a (by simp)
    have ih2 := ih (fun c hc => hw c (by simp [hc]))
    simp [List.takeWhile_cons, List.dropWhile_cons, ha, ih2.1, ih2.2]

theorem isPrefixOf_append_self (a b : Str) : a.isPrefixOf (a ++ b) = true := by
  rw [List.isPrefixOf_iff_prefix]
  exact List.prefix_append a b

theorem eq_append_drop_of_isPrefixOf (a s : Str) (h : a.isPrefixOf s = true) :
    s = a ++ s.drop a.length := by
  rw [List.isPrefixOf_iff_prefix] at h
  obtain ⟨t, ht⟩ := h
  rw [← ht, List.drop_left]

theorem matchIntro_sound (k : IntroKind) (s i1 r1 : Str)
    (h : matchIntro k s = some (i1, r1)) : s = i1 ++ r1 ∧ IntroOK k i1 := by
  cases k with
  | fromKw =>
    simp only [matchIntro] at h
    split at h
    · split at h
      · exact absurd h (by simp)
      · rename_i hp he
        have h2 := Option.some.inj h
        have hi1 : i1 = fromLit ++ (s.drop fromLit.length).takeWhile isWsChar :=
          (congrArg Prod.fst h2).symm
        have hr1 : r1 = (s.drop fromLit.length).dropWhile isWsChar :=
          (congrArg Prod.snd h2).symm
        refine ⟨?_, ?_⟩
        · rw [hi1, hr1, List.append_assoc, List.takeWhile_append_dropWhile]
          exact eq_append_drop_of_isPrefixOf _ _ hp
        · rw [hi1]
          refine ⟨(s.drop fromLit.length).takeWhile isWsChar, rfl, ?_, ?_⟩
          · intro hnil
            rw [hnil] at he
            simp at he
          · intro c hc
            exact List.mem_takeWhile_imp hc
    · exact absurd h (by simp)
  | dynImp =>
    simp only [matchIntro] at h
    split at h
    · rename_i hp
      have h2 := Option.some.inj h
      have hi1 : i1 = dynLit := (congrArg Prod.fst h2).symm
      have hr1 : r1 = s.drop dynLit.length := (congrArg Prod.snd h2).symm
      refine ⟨?_, ?_⟩
      · rw [hi1, hr1]
        exact eq_append_drop_of_isPrefixOf _ _ hp
      · rw [hi1]; rfl
    · exact absurd h (by simp)

theorem matchMid_sound (k : MidKind) (s m1 r3 : Str)
    (h : matchMid k s = some (m1, r3)) : s = m1 ++ r3 ∧ MidOK k m1 := by
  cases k with
  | aliasMid =>
    simp only [matchMid] at h
    split at h
    · rename_i hp
      have h2 := Option.some.inj h
      have hm1 : m1 = aliasLit := (congrArg Prod.fst h2).symm
      have hr3 : r3 = s.drop aliasLit.length := (congrArg Prod.snd h2).symm
      refine ⟨?_, ?_⟩
      · rw [hm1, hr3]
        exact eq_append_drop_of_isPrefixOf _ _ hp
      · rw [hm1]; rfl
    · exact absurd h (by simp)
  | relMid =>
    simp only [matchMid] at h
    split at h
    · exact absurd h (by simp)
    · rename_i he
      split at h
      · exact absurd h (by simp)
      · rename_i c r hd
        split at h
        · rename_i hc
          have hc2 : c = '/' := by simpa using hc
          have h2 := Option.some.inj h
          have hm1 : m1 = s.takeWhile (fun c => c == '.') ++ ['/'] :=
            (congrArg Prod.fst h2).symm
          have hr3 : r3 = r := (congrArg Prod.snd h2).symm
          refine ⟨?_, ?_⟩
          · rw [hm1, hr3, List.append_assoc]
            simp only [List.singleton_append]
            rw [← hc2, ← hd, List.takeWhile_append_dropWhile]
          · rw [hm1]
            refine ⟨s.takeWhile (fun c => c == '.'), rfl, ?_, ?_⟩
            · intro hnil
              rw [hnil] at he
              simp at he
            · intro x hx
              simpa using List.mem_takeWhile_imp hx
        · exact absurd h (by simp)

theorem matchPat_sound (sh : Shape) (key s g : Str) (q : Char) (rest : Str)
    (h : matchPat sh key s = some (g, q, rest)) :
    s = g ++ key ++ q :: rest ∧ GoodG sh g q := by
  unfold matchPat at h
  rcases hi : matchIntro sh.intro s with _ | ⟨i1, r1⟩
  · rw [hi] at h; exact absurd h (by simp)
  · rw [hi] at h
    rcases hr1 : r1 with _ | ⟨q1, r2⟩
    · rw [hr1] at h; exact absurd h (by simp)
    · rw [hr1] at h
      by_cases hq1 : isQuoteChar q1
      · simp only [hq1, if_true] at h
        rcases hm : matchMid sh.mid r2 with _ | ⟨m1, r3⟩
        · rw [hm] at h; exact absurd h (by simp)
        · rw [hm] at h
          by_cases hk : key.isPrefixOf r3
          · simp only [hk, if_true] at h
            rcases hdrop : r3.drop key.length with _ | ⟨q2, rest2⟩
            · rw [hdrop] at h; exact absurd h (by simp)
            · rw [hdrop] at h
              by_cases hq2 : isQuoteChar q2
              · simp only [hq2, if_true] at h
                have h2 := Option.some.inj h
                have hg : g = i1 ++ q1 :: m1 := (congrArg Prod.fst h2).symm
                have hq : q = q2 := (congrArg (fun x => x.2.1) h2).symm
                have hrest : rest = rest2 := (congrArg (fun x => x.2.2) h2).symm
                have hs1 := matchIntro_sound sh.intro s i1 r1 hi
                have hs2 := matchMid_sound sh.mid r2 m1 r3 hm
                have hr3 : r3 = key ++ q2 :: rest2 := by
                  have := eq_append_drop_of_isPrefixOf key r3 hk
                  rw [hdrop] at this
                  exact this
                constructor
                · rw [hg, hq, hrest, hs1.1, hr1, hs2.1, hr3]
                  simp [List.append_assoc]
                · exact ⟨i1, q1, m1, hg, hs1.2, hq1, hs2.2, by rw [hq]; exact hq2⟩
              · simp [hq2] at h
          · simp [hk] at h
      · simp [hq1] at h

theorem isQuoteChar_elim (c : Char) (h : isQuoteChar c = true) : c = '\x27' ∨ c = '"' := by
  simp only [isQuoteChar, Bool.or_eq_true, beq_iff_eq] at h
  exact h

theorem isWsChar_elim (c : Char) (h : isWsChar c = true) :
    c = ' ' ∨ c = '\t' ∨ c = '\n' ∨ c = '\r' ∨ c = '\x0b' ∨ c = '\x0c' := by
  simp only [isWsChar, Bool.or_eq_true, beq_iff_eq] at h
  tauto

theorem quote_not_ws (c : Char) (h : isQuoteChar c = true) : isWsChar c = false := by
  rcases isQuoteChar_elim c h with h1 | h1 <;> rw [h1] <;> decide

theorem ws_not_quote (c : Char) (h : isWsChar c = true) : isQuoteChar c = false := by
  rcases isWsChar_elim c h with h1 | h1 | h1 | h1 | h1 | h1 <;> rw [h1] <;> decide

theorem quote_ne_fi (c : Char) (h : isQuoteChar c = true) : c ≠ 'f' ∧ c ≠ 'i' := by
  rcases isQuoteChar_elim c h with h1 | h1 <;> rw [h1] <;> exact ⟨by decide, by decide⟩

theorem ws_ne_fi (c : Char) (h : isWsChar c = true) : c ≠ 'f' ∧ c ≠ 'i' := by
  rcases isWsChar_elim c h with h1 | h1 | h1 | h1 | h1 | h1 <;> rw [h1] <;>
    exact ⟨by decide, by decide⟩

theorem charOKb_elim (c : Char) (h : charOKb c = true) :
    isWsChar c = false ∧ isQuoteChar c = false ∧ c ≠ '(' := by
  simp only [charOKb, Bool.and_eq_true, Bool.not_eq_true', beq_eq_false_iff_ne] at h
  exact ⟨h.1.1, h.1.2, h.2⟩

theorem matchIntro_complete (k : IntroKind) (i1 : Str) (hi : IntroOK k i1)
    (x : Char) (hx : isWsChar x = false) (z : Str) :
    matchIntro k (i1 ++ x :: z) = some (i1, x :: z) := by
  cases k with
  | fromKw =>
    obtain ⟨ws, hws, hne, hall⟩ := hi
    rw [hws]
    have hpre : fromLit.isPrefixOf ((fromLit ++ ws) ++ x :: z) = true := by
      rw [List.append_assoc]
      exact isPrefixOf_append_self _ _
    have hdrop : ((fromLit ++ ws) ++ x :: z).drop fromLit.length = ws ++ x :: z := by
      rw [List.append_assoc]
      exact List.drop_left _ _
    have htw := takeWhile_all_append isWsChar ws x z hall hx
    simp only [matchIntro, hpre, if_true, hdrop, htw.1, htw.2]
    rw [if_neg (by simpa using hne)]
  | dynImp =>
    rw [hi]
    have hpre : dynLit.isPrefixOf ((dynLit) ++ x :: z) = true := isPrefixOf_append_self _ _
    simp only [matchIntro, hpre, if_true, List.drop_left]

theorem matchMid_complete (k : MidKind) (m1 : Str) (hm : MidOK k m1) (z : Str) :
    matchMid k (m1 ++ z) = some (m1, z) := by
  cases k with
  | aliasMid =>
    rw [hm]
    simp only [matchMid, isPrefixOf_append_self, if_true, List.drop_left]
  | relMid =>
    obtain ⟨ds, hds, hne, hall⟩ := hm
    rw [hds]
    have hall2 : ∀ c ∈ ds, (c == '.') = true := by
      intro c hc
      simp [hall c hc]
    have hslash : (('/' : Char) == '.') = false := by decide
    have htw := takeWhile_all_append (fun c => c == '.') ds '/' z hall2 hslash
    have heq : (ds ++ ['/']) ++ z = ds ++ '/' :: z := by simp
    rw [heq]
    simp only [matchMid, htw.1, htw.2]
    rw [if_neg (by simpa using hne)]
    simp

theorem matchPat_complete (sh : Shape) (key g : Str) (q : Char) (r : Str)
    (hg : GoodG sh g q) :
    matchPat sh key ((g ++ key) ++ q :: r) = some (g, q, r) := by
  obtain ⟨i1, q1, m1, hgeq, hi, hq1, hm, hq⟩ := hg
  have hq1ws : isWsChar q1 = false := quote_not_ws q1 hq1
  have harr : (g ++ key) ++ q :: r = i1 ++ q1 :: (m1 ++ (key ++ q :: r)) := by
    rw [hgeq]; simp [List.append_assoc]
  rw [harr]
  have hIntro := matchIntro_complete sh.intro i1 hi q1 hq1ws (m1 ++ (key ++ q :: r))
  have hMid := matchMid_complete sh.mid m1 hm (key ++ q :: r)
  simp only [matchPat, hIntro, hq1, if_true, hMid, isPrefixOf_append_self, List.drop_left, hq,
    hgeq]

theorem matchPat_head (sh : Shape) (key s g : Str) (q : Char) (rest : Str)
    (h : matchPat sh key s = some (g, q, rest)) : ∃ t, s = 'f' :: t ∨ s = 'i' :: t := by
  obtain ⟨hs, i1, q1, m1, hgeq, hi, _, _, _⟩ := matchPat_sound sh key s g q rest h
  cases hk : sh.intro with
  | fromKw =>
    rw [hk] at hi
    obtain ⟨ws, hws, _, _⟩ := hi
    refine ⟨(("rom".toList ++ ws) ++ q1 :: m1) ++ key ++ q :: rest, Or.inl ?_⟩
    rw [hs, hgeq, hws]
    simp [fromLit]
  | dynImp =>
    rw [hk] at hi
    refine ⟨(("mport(".toList) ++ q1 :: m1) ++ key ++ q :: rest, Or.inr ?_⟩
    rw [hs, hgeq, hi]
    simp [dynLit]

theorem matchPat_cons_none (sh : Shape) (key : Str) (c : Char) (z : Str)
    (hcf : c ≠ 'f') (hci : c ≠ 'i') : matchPat sh key (c :: z) = none := by
  cases hm : matchPat sh key (c :: z) with
  | none => rfl
  | some x =>
    obtain ⟨g, q, rest⟩ := x
    obtain ⟨t, ht | ht⟩ := matchPat_head sh key (c :: z) g q rest hm
    · exact absurd (List.head_eq_of_cons_eq ht) hcf
    · exact absurd (List.head_eq_of_cons_eq ht) hci

theorem matchPat_nil (sh : Shape) (key : Str) : matchPat sh key [] = none := by
  obtain ⟨i, m⟩ := sh
  cases i <;> rfl

theorem matchPat_rest_lt (sh : Shape) (key s g : Str) (q : Char) (rest : Str)
    (h : matchPat sh key s = some (g, q, rest)) : rest.length < s.length := by
  obtain ⟨hs, i1, q1, m1, hgeq, _, _, _, _⟩ := matchPat_sound sh key s g q rest h
  rw [hs, hgeq]
  simp
  omega

theorem subAux_congr (sh : Shape) (key new : Str) :
    ∀ f1 f2 s, s.length ≤ f1 → s.length ≤ f2 →
    subAux sh key new f1 s = subAux sh key new f2 s := by
  intro f1
  induction f1 with
  | zero =>
    intro f2 s h1 _
    have hs : s = [] := by
      cases s with
      | nil => rfl
      | cons c t => simp at h1
    subst hs
    cases f2 with
    | zero => rfl
    | succ f2 => simp [subAux, matchPat_nil]
  | succ f1 ih =>
    intro f2 s h1 h2
    cases s with
    | nil =>
      cases f2 with
      | zero => simp [subAux, matchPat_nil]
      | succ f2 => simp [subAux, matchPat_nil]
    | cons c t =>
      cases f2 with
      | zero => simp at h2
      | succ f2 =>
        simp only [subAux]
        cases hm : matchPat sh key (c :: t) with
        | some x =>
          obtain ⟨g, q, rest⟩ := x
          have hlt := matchPat_rest_lt sh key (c :: t) g q rest hm
          have hr1 : rest.length ≤ f1 := by
            simp at h1 hlt
            omega
          have hr2 : rest.length ≤ f2 := by
            simp at h2 hlt
            omega
          dsimp only
          rw [ih f2 rest hr1 hr2]
        | none =>
          have ht1 : t.length ≤ f1 := by simp at h1; omega
          have ht2 : t.length ≤ f2 := by simp at h2; omega
          dsimp only
          rw [ih f2 t ht1 ht2]

theorem subPy_nil (sh : Shape) (key new : Str) : subPy sh key new [] = [] := rfl

theorem subPy_some (sh : Shape) (key new s g : Str) (q : Char) (rest : Str)
    (h : matchPat sh key s = some (g, q, rest)) :
    subPy sh key new s = g ++ new ++ q :: subPy sh key new rest := by
  have hlt := matchPat_rest_lt sh key s g q rest h
  have hs : s ≠ [] := by
    intro hnil
    rw [hnil, matchPat_nil] at h
    exact absurd h (by simp)
  obtain ⟨c, t, hct⟩ : ∃ c t, s = c :: t := by
    cases s with
    | nil => exact absurd rfl hs
    | cons c t => exact ⟨c, t, rfl⟩
  unfold subPy
  rw [hct]
  simp only [List.length_cons, subAux]
  rw [← hct, h]
  dsimp only
  have : subAux sh key new t.length rest = subAux sh key new rest.length rest := by
    apply subAux_congr
    · rw [hct] at hlt
      simp at hlt
      omega
    · exact le_rfl
  rw [this]

theorem subPy_cons_none (sh : Shape) (key new : Str) (c : Char) (t : Str)
    (h : matchPat sh key (c :: t) = none) :
    subPy sh key new (c :: t) = c :: subPy sh key new t := by
  unfold subPy
  simp only [List.length_cons, subAux]
  rw [h]

theorem hasMatchB_cons_false (sh : Shape) (key : Str) (c : Char) (t : Str)
    (h : hasMatchB sh key (c :: t) = false) :
    matchPat sh key (c :: t) = none ∧ hasMatchB sh key t = false := by
  simp only [hasMatchB, Bool.or_eq_false_iff] at h
  exact ⟨Option.not_isSome_iff_eq_none.mp (by simp [h.1]), h.2⟩

theorem noMatch_subPy_id (sh : Shape) (key new : Str) :
    ∀ s, hasMatchB sh key s = false → subPy sh key new s = s := by
  intro s
  induction s with
  | nil => intro _; rfl
  | cons c t ih =>
    intro h
    obtain ⟨h1, h2⟩ := hasMatchB_cons_false sh key c t h
    rw [subPy_cons_none sh key new c t h1, ih h2]

theorem hasMatchB_append_right (sh : Shape) (key : Str) (x y : Str)
    (h : hasMatchB sh key y = true) : hasMatchB sh key (x ++ y) = true := by
  induction x with
  | nil => simpa using h
  | cons a x ih =>
    simp only [List.cons_append, hasMatchB, Bool.or_eq_true]
    right
    exact ih

theorem hasMatchB_suffix_false (sh : Shape) (key : Str) (x y : Str)
    (h : hasMatchB sh key (x ++ y) = false) : hasMatchB sh key y = false := by
  cases hy : hasMatchB sh key y with
  | false => rfl
  | true => rw [hasMatchB_append_right sh key x y hy] at h; exact absurd h (by simp)

/-- If a match exists inside seg ++ y, either it starts at some nonempty
suffix position of seg, or it lies inside y. -/
theorem hasMatchB_split (sh : Shape) (key : Str) :
    ∀ seg y, hasMatchB sh key (seg ++ y) = true →
    (∃ a b, seg = a ++ b ∧ b ≠ [] ∧ (matchPat sh key (b ++ y)).isSome = true) ∨
      hasMatchB sh key y = true := by
  intro seg
  induction seg with
  | nil => intro y h; right; simpa using h
  | cons c t ih =>
    intro y h
    simp only [List.cons_append, hasMatchB, Bool.or_eq_true] at h
    rcases h with h | h
    · left
      exact ⟨[], c :: t, rfl, by simp, by simpa using h⟩
    · rcases ih y h with ⟨a, b, hab, hb, hm⟩ | h2
      · left
        exact ⟨c :: a, b, by rw [hab]; rfl, hb, hm⟩
      · right; exact h2

theorem keyOKb_elim (k : Str) (h : keyOKb k = true) :
    k ≠ [] ∧ ∀ c ∈ k, charOKb c = true := by
  simp only [keyOKb, Bool.and_eq_true, Bool.not_eq_true', List.isEmpty_eq_false,
    List.all_eq_true] at h
  exact h

theorem valOKb_elim (v : Str) (h : valOKb v = true) : ∀ c ∈ v, charOKb c = true := by
  simp only [valOKb, List.all_eq_true] at h
  exact h

theorem ws_charOKb_false (c : Char) (h : isWsChar c = true) : charOKb c = false := by
  simp [charOKb, h]

theorem introOK_bad_char (k : IntroKind) (i1 : Str) (hi : IntroOK k i1) :
    ∃ x ∈ i1, charOKb x = false := by
  cases k with
  | fromKw =>
    obtain ⟨ws, hws, hne, hall⟩ := hi
    obtain ⟨w0, ws', hw⟩ : ∃ w0 ws', ws = w0 :: ws' := by
      cases ws with
      | nil => exact absurd rfl hne
      | cons w0 ws' => exact ⟨w0, ws', rfl⟩
    refine ⟨w0, ?_, ?_⟩
    · rw [hws, hw]
      simp
    · exact ws_charOKb_false w0 (hall w0 (by rw [hw]; simp))
  | dynImp =>
    rw [hi]
    exact ⟨'(', by decide, by decide⟩

theorem introOK_no_quote (k : IntroKind) (i1 : Str) (hi : IntroOK k i1) :
    ∀ x ∈ i1, isQuoteChar x = false := by
  cases k with
  | fromKw =>
    obtain ⟨ws, hws, _, hall⟩ := hi
    intro x hx
    rw [hws] at hx
    rcases List.mem_append.mp hx with hx | hx
    · have : ∀ y ∈ fromLit, isQuoteChar y = false := by decide
      exact this x hx
    · exact ws_not_quote x (hall x hx)
  | dynImp =>
    rw [hi]
    decide

theorem goodG_tail_ne_fi (sh : Shape) (g : Str) (q2 : Char) (hg : GoodG sh g q2) :
    ∀ a x y, g = a ++ x :: y → a ≠ [] → x ≠ 'f' ∧ x ≠ 'i' := by
  obtain ⟨i1, q1, m1, hgeq, hi, hq1, hm, _⟩ := hg
  intro a x y hsplit hane
  obtain ⟨a0, a2, ha⟩ : ∃ a0 a2, a = a0 :: a2 := by
    cases a with
    | nil => exact absurd rfl hane
    | cons a0 a2 => exact ⟨a0, a2, rfl⟩
  have hx : x ∈ a2 ++ x :: y := by simp
  obtain ⟨c0, i1r, hi1⟩ : ∃ c0 i1r, i1 = c0 :: i1r := by
    cases hk : sh.intro with
    | fromKw =>
      rw [hk] at hi
      obtain ⟨ws, hws, _, _⟩ := hi
      exact ⟨'f', "rom".toList ++ ws, by rw [hws]; rfl⟩
    | dynImp =>
      rw [hk] at hi
      exact ⟨'i', "mport(".toList, by rw [hi]; rfl⟩
  have htails : a2 ++ x :: y = i1r ++ q1 :: m1 := by
    have h1 : g = a0 :: (a2 ++ x :: y) := by rw [hsplit, ha]; rfl
    have h2 : g = c0 :: (i1r ++ q1 :: m1) := by rw [hgeq, hi1]; rfl
    have := h1.symm.trans h2
    exact List.tail_eq_of_cons_eq this
  rw [htails] at hx
  have hcases : x ∈ i1r ∨ x = q1 ∨ x ∈ m1 := by
    rcases List.mem_append.mp hx with hx | hx
    · exact Or.inl hx
    · rcases List.mem_cons.mp hx with hx | hx
      · exact Or.inr (Or.inl hx)
      · exact Or.inr (Or.inr hx)
  rcases hcases with hx | hx | hx
  · cases hk : sh.intro with
    | fromKw =>
      rw [hk] at hi
      obtain ⟨ws, hws, _, hall⟩ := hi
      have : i1r = "rom".toList ++ ws := by
        have : i1 = 'f' :: ("rom".toList ++ ws) := by rw [hws]; rfl
        rw [hi1] at this
        exact List.tail_eq_of_cons_eq this
      rw [this] at hx
      rcases List.mem_append.mp hx with hx | hx
      · have hrom : ∀ y ∈ "rom".toList, y ≠ 'f' ∧ y ≠ 'i' := by decide
        exact hrom x hx
      · exact ws_ne_fi x (hall x hx)
    | dynImp =>
      rw [hk] at hi
      have : i1r = "mport(".toList := by
        have h2 : i1 = 'i' :: "mport(".toList := by rw [hi]; rfl
        rw [hi1] at h2
        exact List.tail_eq_of_cons_eq h2
      rw [this] at hx
      have hdl : ∀ y ∈ "mport(".toList, y ≠ 'f' ∧ y ≠ 'i' := by decide
      exact hdl x hx
  · rw [hx]
    exact quote_ne_fi q1 hq1
  · cases hmk : sh.mid with
    | aliasMid =>
      rw [hmk] at hm
      rw [hm] at hx
      have hal : ∀ y ∈ aliasLit, y ≠ 'f' ∧ y ≠ 'i' := by decide
      exact hal x hx
    | relMid =>
      rw [hmk] at hm
      obtain ⟨ds, hds, _, hall⟩ := hm
      rw [hds] at hx
      rcases List.mem_append.mp hx with hx | hx
      · rw [hall x hx]
        exact ⟨by decide, by decide⟩
      · have : x = '/' := by simpa using hx
        rw [this]
        exact ⟨by decide, by decide⟩

/-- Splitting a prefix of an append: either it is a prefix of the first part,
or it extends it and the remainder is a prefix of the second part. -/
theorem prefix_split (a b c : Str) (h : a.isPrefixOf (b ++ c) = true) :
    (∃ d, b = a ++ d) ∨ (∃ d, a = b ++ d ∧ d.isPrefixOf c = true) := by
  rw [List.isPrefixOf_iff_prefix] at h
  have hb : b <+: b ++ c := List.prefix_append b c
  rcases List.prefix_or_prefix_of_prefix h hb with h2 | h2
  · left
    obtain ⟨d, hd⟩ := h2
    exact ⟨d, hd.symm⟩
  · right
    obtain ⟨d, hd⟩ := h2
    refine ⟨d, hd.symm, ?_⟩
    rw [List.isPrefixOf_iff_prefix]
    have : b ++ d <+: b ++ c := by rw [hd]; exact h
    exact (List.prefix_append_right_inj b).mp this

theorem goodG_head (sh : Shape) (g : Str) (q : Char) (hg : GoodG sh g q) :
    ∃ t, g = 'f' :: t ∨ g = 'i' :: t := by
  obtain ⟨i1, q1, m1, hgeq, hi, _, _, _⟩ := hg
  cases hk : sh.intro with
  | fromKw =>
    rw [hk] at hi
    obtain ⟨ws, hws, _, _⟩ := hi
    exact ⟨("rom".toList ++ ws) ++ q1 :: m1, Or.inl (by rw [hgeq, hws]; simp [fromLit])⟩
  | dynImp =>
    rw [hk] at hi
    exact ⟨"mport(".toList ++ q1 :: m1, Or.inr (by rw [hgeq, hi]; simp [dynLit])⟩

theorem midOK_ne_fi (k : MidKind) (m1 : Str) (hm : MidOK k m1) :
    ∀ y ∈ m1, y ≠ 'f' ∧ y ≠ 'i' := by
  cases k with
  | aliasMid =>
    rw [hm]
    decide
  | relMid =>
    obtain ⟨ds, hds, _, hall⟩ := hm
    intro y hy
    rw [hds] at hy
    rcases List.mem_append.mp hy with hy | hy
    · rw [hall y hy]
      exact ⟨by decide, by decide⟩
    · have : y = '/' := by simpa using hy
      rw [this]
      exact ⟨by decide, by decide⟩

theorem introOK_align (k k2 : IntroKind) (i1 i2 : Str) (q1 q2 : Char) (A B : Str)
    (h1 : IntroOK k i1) (h2 : IntroOK k2 i2)
    (hq1 : isQuoteChar q1 = true) (hq2 : isQuoteChar q2 = true)
    (heq : i1 ++ q1 :: A = i2 ++ q2 :: B) : i1 = i2 ∧ q1 = q2 ∧ A = B := by
  cases k with
  | fromKw =>
    obtain ⟨ws, hws, _, hall⟩ := h1
    cases k2 with
    | fromKw =>
      obtain ⟨ws2, hws2, _, hall2⟩ := h2
      rw [hws, hws2] at heq
      rw [List.append_assoc, List.append_assoc] at heq
      have hws3 : ws ++ q1 :: A = ws2 ++ q2 :: B := List.append_cancel_left heq
      rcases List.append_eq_append_iff.mp hws3 with ⟨m, hm1, hm2⟩ | ⟨m, hm1, hm2⟩
      · cases m with
        | nil =>
          simp at hm1
          obtain ⟨hq, hab⟩ := List.cons.inj (by simpa using hm2)
          exact ⟨by rw [hws, hws2, hm1], hq, hab⟩
        | cons y m' =>
          exfalso
          obtain ⟨hqy, _⟩ := List.cons.inj hm2
          have hyw : isWsChar y = true := hall2 y (by rw [hm1]; simp)
          rw [← hqy] at hyw
          rw [quote_not_ws q1 hq1] at hyw
          exact absurd hyw (by simp)
      · cases m with
        | nil =>
          simp at hm1
          obtain ⟨hq, hab⟩ := List.cons.inj (by simpa using hm2)
          exact ⟨by rw [hws, hws2, hm1], hq.symm, hab.symm⟩
        | cons y m' =>
          exfalso
          obtain ⟨hqy, _⟩ := List.cons.inj hm2
          have hyw : isWsChar y = true := hall y (by rw [hm1]; simp)
          rw [← hqy] at hyw
          rw [quote_not_ws q2 hq2] at hyw
          exact absurd hyw (by simp)
    | dynImp =>
      exfalso
      rw [hws, h2] at heq
      simp [fromLit, dynLit] at heq
  | dynImp =>
    cases k2 with
    | fromKw =>
      exfalso
      obtain ⟨ws2, hws2, _, _⟩ := h2
      rw [h1, hws2] at heq
      simp [fromLit, dynLit] at heq
    | dynImp =>
      rw [h1, h2] at heq
      obtain ⟨hq, hab⟩ := List.cons.inj (List.append_cancel_left heq)
      exact ⟨by rw [h1, h2], hq, hab⟩

theorem midOK_align (k k2 : MidKind) (m1 m2 : Str) (C D : Str)
    (h1 : MidOK k m1) (h2 : MidOK k2 m2)
    (heq : m1 ++ C = m2 ++ D) : m1 = m2 ∧ C = D := by
  cases k with
  | aliasMid =>
    cases k2 with
    | aliasMid =>
      rw [h1, h2] at heq
      exact ⟨by rw [h1, h2], List.append_cancel_left heq⟩
    | relMid =>
      exfalso
      obtain ⟨ds2, hds2, hne2, hall2⟩ := h2
      obtain ⟨d0, ds2', hd0⟩ : ∃ d0 ds2', ds2 = d0 :: ds2' := by
        cases ds2 with
        | nil => exact absurd rfl hne2
        | cons d0 ds2' => exact ⟨d0, ds2', rfl⟩
      rw [h1, hds2, hd0] at heq
      have hat : ('@' : Char) = d0 := by
        have h3 : '@' :: ("/components/".toList ++ C) = d0 :: ((ds2' ++ ['/']) ++ D) := by
          simpa [aliasLit] using heq
        exact (List.cons.inj h3).1
      have : d0 = '.' := hall2 d0 (by rw [hd0]; simp)
      rw [this] at hat
      exact absurd hat (by decide)
  | relMid =>
      obtain ⟨ds, hds, hne, hall⟩ := h1
      cases k2 with
      | aliasMid =>
        exfalso
        obtain ⟨d0, ds', hd0⟩ : ∃ d0 ds', ds = d0 :: ds' := by
          cases ds with
          | nil => exact absurd rfl hne
          | cons d0 ds' => exact ⟨d0, ds', rfl⟩
        rw [h2, hds, hd0] at heq
        have hat : d0 = '@' := by
          have h3 : d0 :: ((ds' ++ ['/']) ++ C) = '@' :: ("/components/".toList ++ D) := by
            simpa [aliasLit] using heq
          exact (List.cons.inj h3).1
        have : d0 = '.' := hall d0 (by rw [hd0]; simp)
        rw [this] at hat
        exact absurd hat (by decide)
      | relMid =>
        obtain ⟨ds2, hds2, hne2, hall2⟩ := h2
        rw [hds, hds2] at heq
        rw [List.append_assoc, List.append_assoc] at heq
        rcases List.append_eq_append_iff.mp heq with ⟨m, hm1, hm2⟩ | ⟨m, hm1, hm2⟩
        · cases m with
          | nil =>
            simp at hm1
            have hCD := List.append_cancel_left (hm1 ▸ heq)
            have hCD2 : C = D := by simpa using hCD
            exact ⟨by rw [hds, hds2, hm1], hCD2⟩
          | cons y m' =>
            exfalso
            have hy1 : y = '/' := by
              have := (List.cons.inj (by simpa using hm2)).1
              exact this.symm
            have hy2 : y = '.' := hall2 y (by rw [hm1]; simp)
            rw [hy1] at hy2
            exact absurd hy2 (by decide)
        · cases m with
          | nil =>
            simp at hm1
            have hCD := List.append_cancel_left (hm1 ▸ heq.symm)
            have hCD2 : D = C := by simpa using hCD
            exact ⟨by rw [hds, hds2, hm1], hCD2.symm⟩
          | cons y m' =>
            exfalso
            have hy1 : y = '/' := by
              have := (List.cons.inj (by simpa using hm2)).1
              exact this.symm
            have hy2 : y = '.' := hall y (by rw [hm1]; simp)
            rw [hy1] at hy2
            exact absurd hy2 (by decide)

/-- No pattern can match starting strictly inside the replacement value:
the value has no whitespace, no quotes and no opening parenthesis, and the
closing quote right after it stops any partial intro literal. -/
theorem matchPat_inval_none (sh' : Shape) (key' new : Str) (q : Char) (X : Str)
    (hv : valOKb new = true) (hq : isQuoteChar q = true)
    (n1 n2 : Str) (hnew : new = n1 ++ n2) :
    matchPat sh' key' (n2 ++ q :: X) = none := by
  cases hmp : matchPat sh' key' (n2 ++ q :: X) with
  | none => rfl
  | some x =>
    exfalso
    obtain ⟨g2, q2, rest2⟩ := x
    obtain ⟨hs, hg2⟩ := matchPat_sound _ _ _ _ _ _ hmp
    obtain ⟨i2, q12, m2, hgeq, hi2, hq12, hm2, hq2⟩ := hg2
    have hvall := valOKb_elim new hv
    have hsub : ∀ c ∈ n2, c ∈ new := fun c hc => by
      rw [hnew]; exact List.mem_append_right n1 hc
    rw [hgeq] at hs
    have hs2 : n2 ++ (q :: X) = i2 ++ (q12 :: (m2 ++ (key' ++ q2 :: rest2))) := by
      rw [hs]; simp [List.append_assoc]
    obtain ⟨bad, hbadmem, hbadok⟩ := introOK_bad_char sh'.intro i2 hi2
    rcases List.append_eq_append_iff.mp hs2 with ⟨m, hm1, hm2e⟩ | ⟨m, hm1, hm2e⟩
    · cases m with
      | nil =>
        simp at hm1
        rw [hm1] at hbadmem
        rw [hvall bad (hsub bad hbadmem)] at hbadok
        exact absurd hbadok (by simp)
      | cons y m' =>
        have hqy : q = y := (List.cons.inj hm2e).1
        have hymem : y ∈ i2 := by rw [hm1]; simp
        have hqf := introOK_no_quote sh'.intro i2 hi2 y hymem
        rw [← hqy, hq] at hqf
        exact absurd hqf (by simp)
    · have hbmem2 : bad ∈ n2 := by rw [hm1]; exact List.mem_append_left m hbadmem
      rw [hvall bad (hsub bad hbmem2)] at hbadok
      exact absurd hbadok (by simp)

/-- No pattern of the table can match at the very start of a replacement
segment: the rewritten specifier is not equal to, nor compatible with, any
table key. -/
theorem matchPat_seg0_none (sh sh' : Shape) (key' new g : Str) (q : Char) (X : Str)
    (hg : GoodG sh g q) (hk' : keyOKb key' = true) (hv : valOKb new = true)
    (hne : key' ≠ new) :
    matchPat sh' key' (g ++ (new ++ q :: X)) = none := by
  cases hmp : matchPat sh' key' (g ++ (new ++ q :: X)) with
  | none => rfl
  | some x =>
    exfalso
    obtain ⟨g2, q2, rest2⟩ := x
    obtain ⟨hs, hg2⟩ := matchPat_sound _ _ _ _ _ _ hmp
    obtain ⟨i1, q1, m1, hgeq1, hi1, hq1, hm1, hqq⟩ := hg
    obtain ⟨i2, q12, m2, hgeq2, hi2, hq12, hm2, hq2⟩ := hg2
    rw [hgeq1, hgeq2] at hs
    have hs2 : i1 ++ q1 :: (m1 ++ (new ++ q :: X)) =
        i2 ++ q12 :: (m2 ++ (key' ++ q2 :: rest2)) := by
      simp only [List.append_assoc, List.cons_append] at hs ⊢
      exact hs
    obtain ⟨hieq, hqeq, hrest⟩ :=
      introOK_align sh.intro sh'.intro i1 i2 q1 q12 _ _ hi1 hi2 hq1 hq12 hs2
    obtain ⟨hmeq, hkeyeq⟩ := midOK_align sh.mid sh'.mid m1 m2 _ _ hm1 hm2 hrest
    have hkall := (keyOKb_elim key' hk').2
    have hvall := valOKb_elim new hv
    rcases List.append_eq_append_iff.mp hkeyeq with ⟨m, hma, hmb⟩ | ⟨m, hma, hmb⟩
    · cases m with
      | nil =>
        simp at hma
        exact hne hma
      | cons y m' =>
        have hqy : q = y := (List.cons.inj hmb).1
        have hymem : y ∈ key' := by rw [hma]; simp
        have hok := charOKb_elim y (hkall y hymem)
        rw [← hqy] at hok
        rw [hqq] at hok
        exact absurd hok.2.1 (by simp)
    · cases m with
      | nil =>
        simp at hma
        exact hne hma.symm
      | cons y m' =>
        have hqy : q2 = y := (List.cons.inj hmb).1
        have hymem : y ∈ new := by rw [hma]; simp
        have hok := charOKb_elim y (hvall y hymem)
        rw [← hqy] at hok
        rw [hq2] at hok
        exact absurd hok.2.1 (by simp)

/-- No pattern can match starting strictly inside a replacement segment. -/
theorem matchPat_segtail_none (sh sh' : Shape) (key' new g : Str) (q : Char)
    (hg : GoodG sh g q) (hv : valOKb new = true) :
    ∀ a b X, g ++ (new ++ [q]) = a ++ b → a ≠ [] → b ≠ [] →
    matchPat sh' key' (b ++ X) = none := by
  intro a b X hsplit ha hb
  cases hmp : matchPat sh' key' (b ++ X) with
  | none => rfl
  | some x =>
    exfalso
    obtain ⟨g2, q2, rest2⟩ := x
    obtain ⟨x0, b', hxb⟩ : ∃ x0 b', b = x0 :: b' := by
      cases b with
      | nil => exact absurd rfl hb
      | cons x0 b' => exact ⟨x0, b', rfl⟩
    have hq : isQuoteChar q = true := by
      obtain ⟨_, _, _, _, _, _, _, hq⟩ := hg
      exact hq
    have hx0 : x0 = 'f' ∨ x0 = 'i' := by
      obtain ⟨t, ht | ht⟩ := matchPat_head sh' key' (b ++ X) g2 q2 rest2 hmp
      · left
        rw [hxb] at ht
        exact (List.cons.inj (by simpa using ht)).1
      · right
        rw [hxb] at ht
        exact (List.cons.inj (by simpa using ht)).1
    rw [hxb] at hsplit
    rcases List.append_eq_append_iff.mp hsplit with ⟨m, h1, h2⟩ | ⟨m, h1, h2⟩
    · rcases List.append_eq_append_iff.mp h2 with ⟨e, h3, h4⟩ | ⟨e, h3, h4⟩
      · cases e with
        | nil =>
          simp at h4
          have hq0 : q = x0 := h4.1
          have hfi := quote_ne_fi q hq
          rw [hq0] at hfi
          rcases hx0 with hx0 | hx0
          · exact absurd hx0 hfi.1
          · exact absurd hx0 hfi.2
        | cons y e' =>
          have hlen := congrArg List.length h4
          simp at hlen
      · cases e with
        | nil =>
          simp at h4
          have hq0 : x0 = q := h4.1
          rw [hq0] at hx0
          rcases hx0 with hx0 | hx0
          · exact absurd hx0 (quote_ne_fi q hq).1
          · exact absurd hx0 (quote_ne_fi q hq).2
        | cons y e' =>
          have hb2 : x0 :: b' = (y :: e') ++ [q] := h4
          have hbx : b ++ X = (y :: e') ++ q :: X := by
            rw [hxb, hb2]
            simp
          rw [hbx] at hmp
          rw [matchPat_inval_none sh' key' new q X hv hq m (y :: e') h3] at hmp
          exact absurd hmp (by simp)
    · cases m with
      | nil =>
        simp at h1 h2
        cases hnw : new with
        | nil =>
          rw [hnw] at h2
          simp at h2
          have hq0 : x0 = q := h2.1
          rw [hq0] at hx0
          rcases hx0 with hx0 | hx0
          · exact absurd hx0 (quote_ne_fi q hq).1
          · exact absurd hx0 (quote_ne_fi q hq).2
        | cons y n' =>
          have hb2 : x0 :: b' = new ++ [q] := by rw [← h2]
          have hbx : b ++ X = new ++ q :: X := by
            rw [hxb, hb2]
            simp
          rw [hbx] at hmp
          rw [matchPat_inval_none sh' key' new q X hv hq [] new (by simp)] at hmp
          exact absurd hmp (by simp)
      | cons y m' =>
        have hx0y : x0 = y := (List.cons.inj h2).1
        have hyfi := goodG_tail_ne_fi sh g q hg a y m' h1 ha
        rw [← hx0y] at hyfi
        rcases hx0 with hx0 | hx0
        · exact absurd hx0 hyfi.1
        · exact absurd hx0 hyfi.2

/-- A quote-terminated nonempty tail piece of a table key can never be
followed by the start of a replacement segment: the segment's intro literal
contains characters a key cannot contain, and the quote cannot appear where
the intro expects its own characters. -/
theorem key_piece_false (sh : Shape) (g : Str) (q : Char) (hg : GoodG sh g q)
    (key' k2 : Str) (hkall : ∀ c ∈ key', charOKb c = true)
    (hsub : ∃ d, key' = d ++ k2)
    (q2' : Char) (hq2' : isQuoteChar q2' = true) (R Z : Str)
    (heq : k2 ++ q2' :: R = g ++ Z) : False := by
  obtain ⟨i1, q1, m1, hgeq, hi1, hq1, hm1, _⟩ := hg
  obtain ⟨d, hd⟩ := hsub
  have hk2mem : ∀ c ∈ k2, c ∈ key' := fun c hc => by
    rw [hd]; exact List.mem_append_right d hc
  rw [hgeq] at heq
  have heq2 : k2 ++ (q2' :: R) = i1 ++ (q1 :: (m1 ++ Z)) := by
    simp only [List.append_assoc, List.cons_append] at heq ⊢
    exact heq
  obtain ⟨bad, hbadmem, hbadok⟩ := introOK_bad_char sh.intro i1 hi1
  rcases List.append_eq_append_iff.mp heq2 with ⟨m, hm1e, hm2e⟩ | ⟨m, hm1e, hm2e⟩
  · cases m with
    | nil =>
      simp at hm1e
      rw [hm1e] at hbadmem
      rw [hkall bad (hk2mem bad hbadmem)] at hbadok
      exact absurd hbadok (by simp)
    | cons y m' =>
      have hqy : q2' = y := (List.cons.inj hm2e).1
      have hymem : y ∈ i1 := by rw [hm1e]; simp
      have hqf := introOK_no_quote sh.intro i1 hi1 y hymem
      rw [← hqy, hq2'] at hqf
      exact absurd hqf (by simp)
  · have hbmem2 : bad ∈ k2 := by rw [hm1e]; exact List.mem_append_left m hbadmem
    rw [hkall bad (hk2mem bad hbmem2)] at hbadok
    exact absurd hbadok (by simp)

/-- A pattern window cannot properly overlap the start of a replacement
segment: wherever the segment start falls inside the window, the characters
are incompatible. -/
theorem overlap_false (sh sh' : Shape) (g' key' : Str) (q2' : Char) (g new : Str)
    (q : Char) (hg' : GoodG sh' g' q2') (hk' : keyOKb key' = true)
    (hg : GoodG sh g q)
    (pre m R Z : Str) (hw : g' ++ key' ++ [q2'] = pre ++ m) (hpre : pre ≠ [])
    (hm : m ≠ []) (heq : m ++ R = g ++ (new ++ q :: Z)) : False := by
  obtain ⟨hk'ne, hkall⟩ := keyOKb_elim key' hk'
  have hq2'q : isQuoteChar q2' = true := by
    obtain ⟨_, _, _, _, _, _, _, h⟩ := hg'
    exact h
  obtain ⟨x0, m2, hxm⟩ : ∃ x0 m2, m = x0 :: m2 := by
    cases m with
    | nil => exact absurd rfl hm
    | cons x0 m2 => exact ⟨x0, m2, rfl⟩
  have hx0 : x0 = 'f' ∨ x0 = 'i' := by
    obtain ⟨t, ht | ht⟩ := goodG_head sh g q hg
    · left
      rw [hxm, ht] at heq
      exact (List.cons.inj (by simpa using heq)).1
    · right
      rw [hxm, ht] at heq
      exact (List.cons.inj (by simpa using heq)).1
  obtain ⟨i1', q1', m1', hgeq', hi1', hq1', hm1', _⟩ := id hg'
  have hw2 : i1' ++ (q1' :: (m1' ++ (key' ++ [q2']))) = pre ++ m := by
    rw [← hw, hgeq']
    simp [List.append_assoc]
  rcases List.append_eq_append_iff.mp hw2 with ⟨d, h1, h2⟩ | ⟨d, h1, h2⟩
  · -- pre = i1' ++ d and q1' :: (m1' ++ (key' ++ [q2'])) = d ++ m
    cases d with
    | nil =>
      simp at h2
      have hx0q : x0 = q1' := by
        rw [hxm] at h2
        exact ((List.cons.inj h2).1).symm
      have := quote_ne_fi q1' hq1'
      rw [← hx0q] at this
      rcases hx0 with hx0 | hx0
      · exact absurd hx0 this.1
      · exact absurd hx0 this.2
    | cons y d' =>
      have h3 : m1' ++ (key' ++ [q2']) = d' ++ m := (List.cons.inj h2).2
      rcases List.append_eq_append_iff.mp h3 with ⟨e, h4, h5⟩ | ⟨e, h4, h5⟩
      · -- d' = m1' ++ e and key' ++ [q2'] = e ++ m
        rcases List.append_eq_append_iff.mp h5 with ⟨f2, h6, h7⟩ | ⟨f2, h6, h7⟩
        · -- e = key' ++ f2 and [q2'] = f2 ++ m
          cases f2 with
          | nil =>
            simp at h7
            rw [hxm] at h7
            have hx0q : q2' = x0 := (List.cons.inj h7).1
            have := quote_ne_fi q2' hq2'q
            rw [hx0q] at this
            rcases hx0 with hx0 | hx0
            · exact absurd hx0 this.1
            · exact absurd hx0 this.2
          | cons z f2' =>
            have hlen := congrArg List.length h7
            rw [hxm] at hlen
            simp at hlen
        · -- key' = e ++ f2 and m = f2 ++ [q2']
          cases f2 with
          | nil =>
            simp at h7
            rw [hxm] at h7
            have hx0q : x0 = q2' := (List.cons.inj h7).1
            have := quote_ne_fi q2' hq2'q
            rw [← hx0q] at this
            rcases hx0 with hx0 | hx0
            · exact absurd hx0 this.1
            · exact absurd hx0 this.2
          | cons z f2' =>
            have heq2 : (z :: f2') ++ q2' :: R = g ++ (new ++ q :: Z) := by
              rw [← heq, h7]
              simp
            exact key_piece_false sh g q hg key' (z :: f2') hkall ⟨e, h6⟩ q2' hq2'q
              R (new ++ q :: Z) heq2
      · -- m1' = d' ++ e and m = e ++ (key' ++ [q2'])
        cases e with
        | nil =>
          simp at h5
          have heq2 : key' ++ q2' :: R = g ++ (new ++ q :: Z) := by
            rw [← heq, h5]
            simp
          exact key_piece_false sh g q hg key' key' hkall ⟨[], by simp⟩ q2' hq2'q
            R (new ++ q :: Z) heq2
        | cons z e' =>
          have hx0z : x0 = z := by
            rw [hxm] at h5
            exact (List.cons.inj h5).1
          have hzfi := midOK_ne_fi sh'.mid m1' hm1' z (by rw [h4]; simp)
          rw [← hx0z] at hzfi
          rcases hx0 with hx0 | hx0
          · exact absurd hx0 hzfi.1
          · exact absurd hx0 hzfi.2
  · -- i1' = pre ++ d and m = d ++ (q1' :: (m1' ++ (key' ++ [q2'])))
    cases d with
    | nil =>
      simp at h1 h2
      have hx0q : x0 = q1' := by
        rw [hxm] at h2
        exact (List.cons.inj h2).1
      have := quote_ne_fi q1' hq1'
      rw [← hx0q] at this
      rcases hx0 with hx0 | hx0
      · exact absurd hx0 this.1
      · exact absurd hx0 this.2
    | cons y d' =>
      have hx0y : x0 = y := by
        rw [hxm] at h2
        exact (List.cons.inj h2).1
      have hgsplit : g' = pre ++ y :: (d' ++ q1' :: m1') := by
        rw [hgeq', h1]
        simp
      have hyfi := goodG_tail_ne_fi sh' g' q2' hg' pre y (d' ++ q1' :: m1') hgsplit hpre
      rw [← hx0y] at hyfi
      rcases hx0 with hx0 | hx0
      · exact absurd hx0 hyfi.1
      · exact absurd hx0 hyfi.2

/-- Decomposition of one substitution pass: either nothing matched, or the
output splits at the first replaced occurrence. -/
theorem subPy_firstseg (sh : Shape) (key new : Str) :
    ∀ t, subPy sh key new t = t ∨
    ∃ u g q rest, t = u ++ ((g ++ key) ++ q :: rest) ∧
      subPy sh key new t = u ++ (g ++ (new ++ q :: subPy sh key new rest)) ∧
      GoodG sh g q := by
  have H : ∀ n t, List.length t ≤ n → subPy sh key new t = t ∨
      ∃ u g q rest, t = u ++ ((g ++ key) ++ q :: rest) ∧
        subPy sh key new t = u ++ (g ++ (new ++ q :: subPy sh key new rest)) ∧
        GoodG sh g q := by
    intro n
    induction n with
    | zero =>
      intro t ht
      have : t = [] := by
        cases t with
        | nil => rfl
        | cons c t' => simp at ht
      rw [this]
      exact Or.inl rfl
    | succ n ih =>
      intro t ht
      cases t with
      | nil => exact Or.inl rfl
      | cons c t' =>
        cases hm : matchPat sh key (c :: t') with
        | some x =>
          obtain ⟨g, q, rest⟩ := x
          obtain ⟨hs, hGood⟩ := matchPat_sound sh key (c :: t') g q rest hm
          right
          refine ⟨[], g, q, rest, by simpa using hs, ?_, hGood⟩
          rw [subPy_some sh key new (c :: t') g q rest hm]
          simp [List.append_assoc]
        | none =>
          rw [subPy_cons_none sh key new c t' hm]
          have ht' : t'.length ≤ n := by simp at ht; omega
          rcases ih t' ht' with h | ⟨u, g, q, rest, h1, h2, h3⟩
          · left
            rw [h]
          · right
            exact ⟨c :: u, g, q, rest, by rw [h1]; rfl, by rw [h2]; rfl, h3⟩
  exact fun t => H t.length t le_rfl

/-- If no pattern of the table matched at this position before the
substitution, none matches after it: the window either lies before the first
replaced segment (then it already matched before, contradiction) or would
overlap a segment start (impossible). -/
theorem head_transfer (sh : Shape) (key new : Str) (sh' : Shape) (key' : Str)
    (hk' : keyOKb key' = true) (c : Char) (t : Str)
    (hnomatch : matchPat sh' key' (c :: t) = none) :
    matchPat sh' key' (c :: subPy sh key new t) = none := by
  cases hmp : matchPat sh' key' (c :: subPy sh key new t) with
  | none => rfl
  | some x =>
    exfalso
    obtain ⟨g2, q2, rest2⟩ := x
    obtain ⟨hs, hg2⟩ := matchPat_sound sh' key' _ g2 q2 rest2 hmp
    rcases subPy_firstseg sh key new t with hid | ⟨u, g, q, rest, ht, hsub, hGood⟩
    · rw [hid] at hs
      have hc := matchPat_complete sh' key' g2 q2 rest2 hg2
      rw [← hs] at hc
      rw [hnomatch] at hc
      exact absurd hc (by simp)
    · rw [hsub] at hs
      have hrhs : c :: (u ++ (g ++ (new ++ q :: subPy sh key new rest))) =
          (c :: u) ++ (g ++ (new ++ q :: subPy sh key new rest)) := rfl
      have hkey2 : (g2 ++ key' ++ [q2]) ++ rest2 = g2 ++ key' ++ q2 :: rest2 := by
        simp
      have hs2 : (g2 ++ key' ++ [q2]) ++ rest2 =
          (c :: u) ++ (g ++ (new ++ q :: subPy sh key new rest)) :=
        hkey2.trans (hs.symm.trans hrhs)
      have hctu : c :: t = (c :: u) ++ ((g ++ key) ++ q :: rest) := by
        rw [ht]
        rfl
      rcases List.append_eq_append_iff.mp hs2 with ⟨d, h1, h2⟩ | ⟨d, h1, h2⟩
      · -- the window is a prefix of c :: u : it matched before the rewrite too
        have hct : c :: t = (g2 ++ key') ++ q2 :: (d ++ ((g ++ key) ++ q :: rest)) := by
          rw [hctu, h1]
          simp [List.append_assoc]
        have hc := matchPat_complete sh' key' g2 q2 (d ++ ((g ++ key) ++ q :: rest)) hg2
        rw [← hct] at hc
        rw [hnomatch] at hc
        exact absurd hc (by simp)
      · cases d with
        | nil =>
          simp at h1
          have hct : c :: t = (g2 ++ key') ++ q2 :: ((g ++ key) ++ q :: rest) := by
            rw [hctu, ← h1]
            simp [List.append_assoc]
          have hc := matchPat_complete sh' key' g2 q2 ((g ++ key) ++ q :: rest) hg2
          rw [← hct] at hc
          rw [hnomatch] at hc
          exact absurd hc (by simp)
        | cons y d' =>
          exact overlap_false sh sh' g2 key' q2 g new q hg2 hk' hGood
            (c :: u) (y :: d') rest2 (subPy sh key new rest) h1 (by simp) (by simp)
            h2.symm

/-- Core stability of one substitution pass: it removes every occurrence of
its own pattern and creates no occurrence of any table pattern. -/
theorem subPy_noMatch (sh sh' : Shape) (key key' new : Str)
    (hk' : keyOKb key' = true) (hv : valOKb new = true) (hne : key' ≠ new) :
    ∀ s, ((sh' = sh ∧ key' = key) ∨ hasMatchB sh' key' s = false) →
    hasMatchB sh' key' (subPy sh key new s) = false := by
  have H : ∀ n s, List.length s ≤ n →
      ((sh' = sh ∧ key' = key) ∨ hasMatchB sh' key' s = false) →
      hasMatchB sh' key' (subPy sh key new s) = false := by
    intro n
    induction n with
    | zero =>
      intro s hs _
      have : s = [] := by
        cases s with
        | nil => rfl
        | cons c t => simp at hs
      rw [this]
      rfl
    | succ n ih =>
      intro s hlen hh
      cases s with
      | nil => rfl
      | cons c t =>
        cases hm : matchPat sh key (c :: t) with
        | some x =>
          obtain ⟨g, q, rest⟩ := x
          obtain ⟨hs, hGood⟩ := matchPat_sound sh key (c :: t) g q rest hm
          have hrestlen : rest.length ≤ n := by
            have := matchPat_rest_lt sh key (c :: t) g q rest hm
            simp at this hlen
            omega
          have hh2 : (sh' = sh ∧ key' = key) ∨ hasMatchB sh' key' rest = false := by
            rcases hh with hh | hh
            · exact Or.inl hh
            · right
              have : c :: t = ((g ++ key) ++ [q]) ++ rest := by
                rw [hs]
                simp
              rw [this] at hh
              exact hasMatchB_suffix_false sh' key' _ rest hh
          have hIH := ih rest hrestlen hh2
          rw [subPy_some sh key new (c :: t) g q rest hm]
          have hform : g ++ new ++ q :: subPy sh key new rest =
              (g ++ (new ++ [q])) ++ subPy sh key new rest := by
            simp
          rw [hform]
          cases hB : hasMatchB sh' key' ((g ++ (new ++ [q])) ++ subPy sh key new rest) with
          | false => rfl
          | true =>
            exfalso
            rcases hasMatchB_split sh' key' _ _ hB with ⟨a, b, hab, hb, hsome⟩ | hy
            · cases a with
              | nil =>
                have hbseg : b = g ++ (new ++ [q]) := by simpa using hab.symm
                have hbY : b ++ subPy sh key new rest =
                    g ++ (new ++ q :: subPy sh key new rest) := by
                  rw [hbseg]
                  simp
                rw [hbY] at hsome
                rw [matchPat_seg0_none sh sh' key' new g q (subPy sh key new rest)
                  hGood hk' hv hne] at hsome
                exact absurd hsome (by simp)
              | cons a0 a' =>
                rw [matchPat_segtail_none sh sh' key' new g q hGood hv (a0 :: a') b
                  (subPy sh key new rest) hab (by simp) hb] at hsome
                exact absurd hsome (by simp)
            · rw [hIH] at hy
              exact absurd hy (by simp)
        | none =>
          rw [subPy_cons_none sh key new c t hm]
          have htlen : t.length ≤ n := by simp at hlen; omega
          have hnomatch : matchPat sh' key' (c :: t) = none := by
            rcases hh with ⟨hsh, hkey⟩ | hh
            · rw [hsh, hkey]
              exact hm
            · exact (hasMatchB_cons_false sh' key' c t hh).1
          have hh2 : (sh' = sh ∧ key' = key) ∨ hasMatchB sh' key' t = false := by
            rcases hh with hh | hh
            · exact Or.inl hh
            · exact Or.inr (hasMatchB_cons_false sh' key' c t hh).2
          have hIH := ih t htlen hh2
          have hhead := head_transfer sh key new sh' key' hk' c t hnomatch
          simp only [hasMatchB, Bool.or_eq_false_iff]
          exact ⟨by rw [hhead]; rfl, hIH⟩
  exact fun s => H s.length s le_rfl

theorem tableOK_elim (t : Table) (h : tableOK t = true) :
    (∀ r ∈ t, keyOKb r.1 = true ∧ valOKb r.2 = true) ∧
    (∀ r ∈ t, ∀ r2 ∈ t, r.1 ≠ r2.2) := by
  simp only [tableOK, Bool.and_eq_true, List.all_eq_true, beq_iff_eq, Bool.not_eq_true',
    beq_eq_false_iff_ne] at h
  exact ⟨fun r hr => by
    have := h.1 r hr
    simpa [Bool.and_eq_true] using this,
    fun r hr r2 hr2 => h.2 r hr r2 hr2⟩

namespace UpdateImports

theorem applyPattern_pres (sh : Shape) (old new : Str) (sh' : Shape) (key' : Str)
    (hk' : keyOKb key' = true) (hv : valOKb new = true) (hne : key' ≠ new)
    (cm : Str × Bool) (h : hasMatchB sh' key' cm.1 = false) :
    hasMatchB sh' key' (applyPattern sh old new cm).1 = false := by
  unfold applyPattern
  split
  · exact subPy_noMatch sh sh' old key' new hk' hv hne cm.1 (Or.inr h)
  · exact h

theorem applyPattern_self (sh : Shape) (old new : Str)
    (hk : keyOKb old = true) (hv : valOKb new = true) (hne : old ≠ new)
    (cm : Str × Bool) :
    hasMatchB sh old (applyPattern sh old new cm).1 = false := by
  unfold applyPattern
  split
  · exact subPy_noMatch sh sh old old new hk hv hne cm.1 (Or.inl ⟨rfl, rfl⟩)
  · rename_i hcond
    simpa using hcond

theorem applyRule_self (old new : Str)
    (hk : keyOKb old = true) (hv : valOKb new = true) (hne : old ≠ new)
    (cm : Str × Bool) (sh' : Shape) :
    hasMatchB sh' old (applyRule old new cm).1 = false := by
  obtain ⟨i, m⟩ := sh'
  unfold applyRule
  cases i <;> cases m
  · exact applyPattern_pres sh4 old new _ old hk hv hne _
      (applyPattern_pres sh3 old new _ old hk hv hne _
        (applyPattern_pres sh2 old new _ old hk hv hne _
          (applyPattern_self sh1 old new hk hv hne cm)))
  · exact applyPattern_pres sh4 old new _ old hk hv hne _
      (applyPattern_pres sh3 old new _ old hk hv hne _
        (applyPattern_self sh2 old new hk hv hne _))
  · exact applyPattern_pres sh4 old new _ old hk hv hne _
      (applyPattern_self sh3 old new hk hv hne _)
  · exact applyPattern_self sh4 old new hk hv hne _

theorem applyRule_pres (old new : Str) (sh' : Shape) (key' : Str)
    (hk' : keyOKb key' = true) (hv : valOKb new = true) (hne : key' ≠ new)
    (cm : Str × Bool) (h : hasMatchB sh' key' cm.1 = false) :
    hasMatchB sh' key' (applyRule old new cm).1 = false := by
  unfold applyRule
  exact applyPattern_pres sh4 old new _ key' hk' hv hne _
    (applyPattern_pres sh3 old new _ key' hk' hv hne _
      (applyPattern_pres sh2 old new _ key' hk' hv hne _
        (applyPattern_pres sh1 old new _ key' hk' hv hne _ h)))

theorem run_pres (t : Table) (sh' : Shape) (key' : Str)
    (hk' : keyOKb key' = true)
    (hcond : ∀ r ∈ t, valOKb r.2 = true ∧ key' ≠ r.2) :
    ∀ cm : Str × Bool, hasMatchB sh' key' cm.1 = false →
    hasMatchB sh' key' (t.foldl (fun cm r => applyRule r.1 r.2 cm) cm).1 = false := by
  induction t with
  | nil => intro cm h; exact h
  | cons r t' ih =>
    intro cm h
    rw [List.foldl_cons]
    exact ih (fun r2 hr2 => hcond r2 (List.mem_cons_of_mem r hr2)) _
      (applyRule_pres r.1 r.2 sh' key' hk' (hcond r (by simp)).1 (hcond r (by simp)).2 cm h)

theorem run_self (t : Table) (r0 : Str × Str)
    (hcond1 : ∀ r ∈ t, keyOKb r.1 = true ∧ valOKb r.2 = true)
    (hcond2 : ∀ r ∈ t, ∀ r2 ∈ t, r.1 ≠ r2.2) :
    ∀ cm : Str × Bool, r0 ∈ t → ∀ sh',
    hasMatchB sh' r0.1 (t.foldl (fun cm r => applyRule r.1 r.2 cm) cm).1 = false := by
  induction t with
  | nil => intro cm h; exact absurd h (by simp)
  | cons r t' ih =>
    intro cm hr0 sh'
    rw [List.foldl_cons]
    rcases List.mem_cons.mp hr0 with hr0 | hr0
    · subst hr0
      exact run_pres t' sh' r0.1 (hcond1 r0 (by simp)).1
        (fun r2 hr2 => ⟨(hcond1 r2 (List.mem_cons_of_mem r0 hr2)).2,
          hcond2 r0 (by simp) r2 (List.mem_cons_of_mem r0 hr2)⟩)
        _ (applyRule_self r0.1 r0.2 (hcond1 r0 (by simp)).1 (hcond1 r0 (by simp)).2
          (hcond2 r0 (by simp) r0 (by simp)) cm sh')
    · exact ih (fun r2 hr2 => hcond1 r2 (List.mem_cons_of_mem r hr2))
        (fun r2 hr2 r3 hr3 => hcond2 r2 (List.mem_cons_of_mem r hr2) r3
          (List.mem_cons_of_mem r hr3)) _ hr0 sh'

/-- After one run of update_file with a well-formed table, no rule's pattern
matches anywhere in the result. -/
theorem update_file_noMatch (t : Table) (ht : tableOK t = true) (content : Str) :
    ∀ r ∈ t, ∀ sh', hasMatchB sh' r.1 (update_file t content).1 = false := by
  intro r hr sh'
  obtain ⟨h1, h2⟩ := tableOK_elim t ht
  exact run_self t r h1 h2 (content, false) hr sh'

theorem applyRule_id (old new : Str) (c : Str) (m : Bool)
    (h : ∀ sh', hasMatchB sh' old c = false) :
    applyRule old new (c, m) = (c, m) := by
  unfold applyRule applyPattern
  simp [h sh1, h sh2, h sh3, h sh4]

theorem update_file_stable (t : Table) (content : Str)
    (hstable : ∀ r ∈ t, ∀ sh', hasMatchB sh' r.1 content = false) :
    update_file t content = (content, false) := by
  unfold update_file
  induction t with
  | nil => rfl
  | cons r t' ih =>
    rw [List.foldl_cons]
    rw [applyRule_id r.1 r.2 content false (fun sh' => hstable r (by simp) sh')]
    exact ih (fun r2 hr2 sh' => hstable r2 (List.mem_cons_of_mem r hr2) sh')

/-- Second-run theorem for update-imports.py: re-running update_file on an
already-updated file changes nothing and reports the file as not modified. -/
theorem update_file_idem (t : Table) (ht : tableOK t = true) (content : Str) :
    update_file t (update_file t content).1 = ((update_file t content).1, false) :=
  update_file_stable t (update_file t content).1 (update_file_noMatch t ht content)

end UpdateImports

namespace UpdateFeatureImports

theorem applyPattern_pres_cnt (sh : Shape) (old new : Str) (sh' : Shape) (key' : Str)
    (hk' : keyOKb key' = true) (hv : valOKb new = true) (hne : key' ≠ new)
    (cn : Str × Nat) (h : hasMatchB sh' key' cn.1 = false) :
    hasMatchB sh' key' (applyPattern sh old new cn).1 = false := by
  unfold applyPattern
  split
  · exact h
  · exact subPy_noMatch sh sh' old key' new hk' hv hne cn.1 (Or.inr h)

theorem applyPattern_self_cnt (sh : Shape) (old new : Str)
    (hk : keyOKb old = true) (hv : valOKb new = true) (hne : old ≠ new)
    (cn : Str × Nat) :
    hasMatchB sh old (applyPattern sh old new cn).1 = false := by
  have hbase := subPy_noMatch sh sh old old new hk hv hne cn.1 (Or.inl ⟨rfl, rfl⟩)
  unfold applyPattern
  split
  · rename_i hcond
    have : subPy sh old new cn.1 = cn.1 := by simpa using hcond
    rw [← this]
    exact hbase
  · exact hbase

theorem applyRule_self_cnt (old new : Str)
    (hk : keyOKb old = true) (hv : valOKb new = true) (hne : old ≠ new)
    (cn : Str × Nat) (sh' : Shape) (hsh : sh' = sh1 ∨ sh' = sh2 ∨ sh' = sh3) :
    hasMatchB sh' old (applyRule old new cn).1 = false := by
  unfold applyRule
  rcases hsh with hsh | hsh | hsh
  · subst hsh
    exact applyPattern_pres_cnt sh3 old new _ old hk hv hne _
      (applyPattern_pres_cnt sh2 old new _ old hk hv hne _
        (applyPattern_self_cnt sh1 old new hk hv hne cn))
  · subst hsh
    exact applyPattern_pres_cnt sh3 old new _ old hk hv hne _
      (applyPattern_self_cnt sh2 old new hk hv hne _)
  · subst hsh
    exact applyPattern_self_cnt sh3 old new hk hv hne _

theorem applyRule_pres_cnt (old new : Str) (sh' : Shape) (key' : Str)
    (hk' : keyOKb key' = true) (hv : valOKb new = true) (hne : key' ≠ new)
    (cn : Str × Nat) (h : hasMatchB sh' key' cn.1 = false) :
    hasMatchB sh' key' (applyRule old new cn).1 = false := by
  unfold applyRule
  exact applyPattern_pres_cnt sh3 old new _ key' hk' hv hne _
    (applyPattern_pres_cnt sh2 old new _ key' hk' hv hne _
      (applyPattern_pres_cnt sh1 old new _ key' hk' hv hne _ h))

theorem run_pres_cnt (t : Table) (sh' : Shape) (key' : Str)
    (hk' : keyOKb key' = true)
    (hcond : ∀ r ∈ t, valOKb r.2 = true ∧ key' ≠ r.2) :
    ∀ cn : Str × Nat, hasMatchB sh' key' cn.1 = false →
    hasMatchB sh' key' (t.foldl (fun cn r => applyRule r.1 r.2 cn) cn).1 = false := by
  induction t with
  | nil => intro cn h; exact h
  | cons r t' ih =>
    intro cn h
    rw [List.foldl_cons]
    exact ih (fun r2 hr2 => hcond r2 (List.mem_cons_of_mem r hr2)) _
      (applyRule_pres_cnt r.1 r.2 sh' key' hk' (hcond r (by simp)).1 (hcond r (by simp)).2 cn h)

theorem run_self_cnt (t : Table) (r0 : Str × Str)
    (hcond1 : ∀ r ∈ t, keyOKb r.1 = true ∧ valOKb r.2 = true)
    (hcond2 : ∀ r ∈ t, ∀ r2 ∈ t, r.1 ≠ r2.2) :
    ∀ cn : Str × Nat, r0 ∈ t → ∀ sh', sh' = sh1 ∨ sh' = sh2 ∨ sh' = sh3 →
    hasMatchB sh' r0.1 (t.foldl (fun cn r => applyRule r.1 r.2 cn) cn).1 = false := by
  induction t with
  | nil => intro cn h; exact absurd h (by simp)
  | cons r t' ih =>
    intro cn hr0 sh' hsh
    rw [List.foldl_cons]
    rcases List.mem_cons.mp hr0 with hr0 | hr0
    · subst hr0
      exact run_pres_cnt t' sh' r0.1 (hcond1 r0 (by simp)).1
        (fun r2 hr2 => ⟨(hcond1 r2 (List.mem_cons_of_mem r0 hr2)).2,
          hcond2 r0 (by simp) r2 (List.mem_cons_of_mem r0 hr2)⟩)
        _ (applyRule_self_cnt r0.1 r0.2 (hcond1 r0 (by simp)).1 (hcond1 r0 (by simp)).2
          (hcond2 r0 (by simp) r0 (by simp)) cn sh' hsh)
    · exact ih (fun r2 hr2 => hcond1 r2 (List.mem_cons_of_mem r hr2))
        (fun r2 hr2 r3 hr3 => hcond2 r2 (List.mem_cons_of_mem r hr2) r3
          (List.mem_cons_of_mem r hr3)) _ hr0 sh' hsh

/-- After one run of the feature-path update_file with a well-formed table,
none of its three patterns matches any rule key in the result. -/
theorem update_file_noMatch_cnt (t : Table) (ht : tableOK t = true) (content : Str) :
    ∀ r ∈ t, ∀ sh', sh' = sh1 ∨ sh' = sh2 ∨ sh' = sh3 →
    hasMatchB sh' r.1 (update_file t content).1 = false := by
  intro r hr sh' hsh
  obtain ⟨h1, h2⟩ := tableOK_elim t ht
  have hfold := run_self_cnt t r h1 h2 (content, 0) hr sh' hsh
  unfold update_file
  split
  · rename_i hcond
    have heq : (t.foldl (fun cn r => applyRule r.1 r.2 cn) (content, 0)).1 = content := by
      simpa using hcond
    simpa [heq] using hfold
  · exact hfold

theorem applyRule_id_cnt (old new : Str) (c : Str) (n : Nat)
    (h : ∀ sh', sh' = sh1 ∨ sh' = sh2 ∨ sh' = sh3 → hasMatchB sh' old c = false) :
    applyRule old new (c, n) = (c, n) := by
  unfold applyRule applyPattern
  rw [noMatch_subPy_id sh1 old new c (h sh1 (Or.inl rfl))]
  simp only [beq_self_eq_true, if_true]
  rw [noMatch_subPy_id sh2 old new c (h sh2 (Or.inr (Or.inl rfl)))]
  simp only [beq_self_eq_true, if_true]
  rw [noMatch_subPy_id sh3 old new c (h sh3 (Or.inr (Or.inr rfl)))]
  simp only [beq_self_eq_true, if_true]

theorem update_file_stable_cnt (t : Table) (content : Str)
    (hstable : ∀ r ∈ t, ∀ sh', sh' = sh1 ∨ sh' = sh2 ∨ sh' = sh3 →
      hasMatchB sh' r.1 content = false) :
    update_file t content = (content, 0) := by
  have hfold : t.foldl (fun cn r => applyRule r.1 r.2 cn) (content, 0) = (content, 0) := by
    induction t with
    | nil => rfl
    | cons r t' ih =>
      rw [List.foldl_cons]
      rw [applyRule_id_cnt r.1 r.2 content 0 (fun sh' hsh => hstable r (by simp) sh' hsh)]
      exact ih (fun r2 hr2 sh' hsh => hstable r2 (List.mem_cons_of_mem r hr2) sh' hsh)
  unfold update_file
  rw [hfold]
  simp

/-- Second-run theorem for update-feature-imports.py: re-running update_file
on an already-updated file changes nothing and reports zero updates. -/
theorem update_file_idem_cnt (t : Table) (ht : tableOK t = true) (content : Str) :
    update_file t (update_file t content).1 = ((update_file t content).1, 0) :=
  update_file_stable_cnt t (update_file t content).1 (update_file_noMatch_cnt t ht content)

/-- The per-rule step raises the counter by at most three (one per pattern
kind), so a run reports at most three counts per table rule regardless of how
many occurrences each substitution replaced. -/
theorem update_file_count_le (t : Table) (content : Str) :
    (update_file t content).2 ≤ 3 * t.length := by
  have hstep : ∀ (cn : Str × Nat) (old new : Str), (applyRule old new cn).2 ≤ cn.2 + 3 := by
    intro cn old new
    unfold applyRule applyPattern
    split <;> split <;> split <;> simp
  have hfold : ∀ (t2 : Table) (cn : Str × Nat),
      (t2.foldl (fun cn r => applyRule r.1 r.2 cn) cn).2 ≤ cn.2 + 3 * t2.length := by
    intro t2
    induction t2 with
    | nil => intro cn; simp
    | cons r t' ih =>
      intro cn
      rw [List.foldl_cons]
      have h1 := ih (applyRule r.1 r.2 cn)
      have h2 := hstep cn r.1 r.2
      simp only [List.length_cons]
      omega
  unfold update_file
  split
  · simp
  · have := hfold t (content, 0)
    simpa using this

end UpdateFeatureImports

theorem main_run_cons_eq (table : Table) (f : Str × FileEvent)
    (fs : List (Str × FileEvent)) :
    UpdateImports.main_run table (f :: fs) =
      ((UpdateImports.process_file table f).1 :: (UpdateImports.main_run table fs).1,
        (if (UpdateImports.process_file table f).2 then 1 else 0) +
          (UpdateImports.main_run table fs).2) := rfl

theorem fmain_run_cons_eq (table : Table) (f : Str × FileEvent)
    (fs : List (Str × FileEvent)) :
    UpdateFeatureImports.main_run table (f :: fs) =
      ((UpdateFeatureImports.process_file table f).1 ::
          (UpdateFeatureImports.main_run table fs).1,
        (if 0 < (UpdateFeatureImports.process_file table f).2 then 1 else 0) +
          (UpdateFeatureImports.main_run table fs).2.1,
        (UpdateFeatureImports.process_file table f).2 +
          (UpdateFeatureImports.main_run table fs).2.2) := rfl

namespace UpdateImports

theorem process_file_stable (table : Table) (ht : tableOK table = true) (c : Str) :
    process_file table ((process_file table (c, FileEvent.ok)).1, FileEvent.ok) =
      ((process_file table (c, FileEvent.ok)).1, false) :=
  update_file_idem table ht c

theorem main_run_stable (table : Table) (ht : tableOK table = true) :
    ∀ fs : List Str,
      main_run table (okBatch (main_run table (okBatch fs)).1) =
        ((main_run table (okBatch fs)).1, 0) := by
  intro fs
  induction fs with
  | nil => rfl
  | cons c fs ih =>
    have h1 : okBatch (main_run table (okBatch (c :: fs))).1 =
        ((update_file table c).1, FileEvent.ok) ::
          okBatch (main_run table (okBatch fs)).1 := rfl
    rw [h1, main_run_cons_eq table _ _, ih]
    have h2 : process_file table ((update_file table c).1, FileEvent.ok) =
        ((update_file table c).1, false) := update_file_idem table ht c
    rw [h2]
    rfl

end UpdateImports

theorem tableOK_RENAMES : tableOK UpdateImports.RENAMES = true := by decide

theorem tableOK_PATH_UPDATES : tableOK UpdateFeatureImports.PATH_UPDATES = true := by decide

theorem tableSafe_tableOK (t : Table) (h : tableSafe t = true) : tableOK t = true := by
  simp only [tableSafe, Bool.and_eq_true] at h
  exact h.1

theorem tableSafe_RENAMES : tableSafe UpdateImports.RENAMES = true := by decide

theorem tableSafe_PATH_UPDATES : tableSafe UpdateFeatureImports.PATH_UPDATES = true := by
  decide

theorem char_toNat_ofNat (n : Nat) (h : n.isValidChar) : (Char.ofNat n).toNat = n := by
  have hlt : n < 2 ^ 32 := by
    rcases h with h | h
    · omega
    · omega
  simp [Char.ofNat, h, Char.ofNatAux, Char.toNat, UInt32.toNat, BitVec.toNat_ofNatLt]

theorem toLower_ne_dash (c : Char) (h : c ≠ '-') : Char.toLower c ≠ '-' := by
  by_cases hc : c.toNat ≥ 65 ∧ c.toNat ≤ 90
  · have hl : Char.toLower c = Char.ofNat (c.toNat + 32) := by
      simp [Char.toLower, hc]
    rw [hl]
    intro he
    have h2 : (Char.ofNat (c.toNat + 32)).toNat = c.toNat + 32 :=
      char_toNat_ofNat _ (Or.inl (by omega))
    rw [he] at h2
    simp at h2
    omega
  · have hl : Char.toLower c = c := by
      simp [Char.toLower]
      omega
    rw [hl]
    exact h

theorem toUpper_ne_dash (c : Char) (h : c ≠ '-') : Char.toUpper c ≠ '-' := by
  by_cases hc : c.toNat ≥ 97 ∧ c.toNat ≤ 122
  · have hl : Char.toUpper c = Char.ofNat (c.toNat - 32) := by
      simp [Char.toUpper, hc]
    rw [hl]
    intro he
    have h2 : (Char.ofNat (c.toNat - 32)).toNat = c.toNat - 32 :=
      char_toNat_ofNat _ (Or.inl (by omega))
    rw [he] at h2
    simp at h2
    omega
  · have hl : Char.toUpper c = c := by
      simp [Char.toUpper]
      omega
    rw [hl]
    exact h

theorem pySplit_mem_ne_sep (sep : Char) :
    ∀ s piece, piece ∈ pySplit sep s → ∀ c ∈ piece, c ≠ sep := by
  intro s
  induction s with
  | nil =>
    intro piece hpc c hc
    simp [pySplit] at hpc
    rw [hpc] at hc
    simp at hc
  | cons a t ih =>
    intro piece hpc c hc
    simp only [pySplit] at hpc
    by_cases ha : a == sep
    · rw [if_pos ha] at hpc
      rcases List.mem_cons.mp hpc with hpc | hpc
      · rw [hpc] at hc
        simp at hc
      · exact ih piece hpc c hc
    · rw [if_neg ha] at hpc
      cases hrec : pySplit sep t with
      | nil =>
        rw [hrec] at hpc
        simp at hpc
        rw [hpc] at hc
        rcases List.mem_singleton.mp hc with hca
        rw [hca]
        simpa using ha
      | cons h0 r =>
        rw [hrec] at hpc
        rcases List.mem_cons.mp hpc with hpc | hpc
        · rw [hpc] at hc
          rcases List.mem_cons.mp hc with hca | hca
          · rw [hca]
            simpa using ha
          · exact ih h0 (by rw [hrec]; simp) c hca
        · exact ih piece (by rw [hrec]; simp [hpc]) c hc

theorem pyCapitalize_ne_dash (piece : Str) (h : ∀ c ∈ piece, c ≠ '-') :
    ∀ c ∈ pyCapitalize piece, c ≠ '-' := by
  cases piece with
  | nil => intro c hc; simp [pyCapitalize] at hc
  | cons a t =>
    intro c hc
    simp only [pyCapitalize] at hc
    rcases List.mem_cons.mp hc with hc | hc
    · rw [hc]
      exact toUpper_ne_dash a (h a (by simp))
    · obtain ⟨x, hx, hxc⟩ := List.mem_map.mp hc
      rw [← hxc]
      exact toLower_ne_dash x (h x (by simp [hx]))

theorem pascal_name_no_dash (stem : Str) :
    ∀ c ∈ FixMovedImports.pascal_name stem, c ≠ '-' := by
  intro c hc
  unfold FixMovedImports.pascal_name at hc
  obtain ⟨piece2, hp2, hcp⟩ := List.mem_flatten.mp hc
  obtain ⟨piece, hp, hpeq⟩ := List.mem_map.mp hp2
  rw [← hpeq] at hcp
  exact pyCapitalize_ne_dash piece (pySplit_mem_ne_sep '-' stem piece hp) c hcp

/-- C1 counterexample: over an arbitrary migration table the rewriting pass
is not idempotent.  With the chained table [(Bb, Cc), (Aa, Bb)] and a file
that imports Aa, the first run rewrites to Bb; the second run rewrites again
to Cc, changes the file and reports it modified, so running twice differs from
running once. -/
theorem C1_counterexample :
    (UpdateImports.update_file chainTable
        (UpdateImports.update_file chainTable chainContent).1).1 ≠
      (UpdateImports.update_file chainTable chainContent).1 ∧
    (UpdateImports.update_file chainTable
        (UpdateImports.update_file chainTable chainContent).1).2 = true := by
  constructor
  · decide
  · decide

/-- C1 amended: for every table whose keys are nonempty, whose keys and
values use only regex-literal characters (letters, digits, dash, slash — so
the unescaped splicing of keys into the patterns matches them literally),
and in which no key equals any value (condition tableSafe, which both
shipped tables RENAMES and PATH_UPDATES satisfy by computation), a second
run of update_file returns the same content and reports no modification
(update-imports.py) or a zero count (update-feature-imports.py);
consequently a second incident-free batch run over any file set leaves
every file unchanged and reports zero files updated. -/
theorem C1_idempotent_on_shipped_tables :
    (∀ (t : Table) (c : Str), tableSafe t = true →
      UpdateImports.update_file t (UpdateImports.update_file t c).1 =
        ((UpdateImports.update_file t c).1, false)) ∧
    (∀ (t : Table) (c : Str), tableSafe t = true →
      UpdateFeatureImports.update_file t (UpdateFeatureImports.update_file t c).1 =
        ((UpdateFeatureImports.update_file t c).1, 0)) ∧
    tableSafe UpdateImports.RENAMES = true ∧
    tableSafe UpdateFeatureImports.PATH_UPDATES = true ∧
    (∀ fs : List Str,
      UpdateImports.main_run UpdateImports.RENAMES
          (okBatch (UpdateImports.main_run UpdateImports.RENAMES (okBatch fs)).1) =
        ((UpdateImports.main_run UpdateImports.RENAMES (okBatch fs)).1, 0)) :=
  ⟨fun t c ht => UpdateImports.update_file_idem t (tableSafe_tableOK t ht) c,
   fun t c ht => UpdateFeatureImports.update_file_idem_cnt t (tableSafe_tableOK t ht) c,
   tableSafe_RENAMES,
   tableSafe_PATH_UPDATES,
   UpdateImports.main_run_stable UpdateImports.RENAMES tableOK_RENAMES⟩

/-- C1 witness: the shipped RENAMES table satisfies the table condition and a
second run over a concrete already-rewritten file reports no modification. -/
theorem C1_witness :
    tableSafe UpdateImports.RENAMES = true ∧
    UpdateImports.update_file UpdateImports.RENAMES
        (UpdateImports.update_file UpdateImports.RENAMES c6content).1 =
      ((UpdateImports.update_file UpdateImports.RENAMES c6content).1, false) :=
  ⟨by decide, C1_idempotent_on_shipped_tables.1 UpdateImports.RENAMES c6content (by decide)⟩

/-- C2 counterexample: on the file containing exactly the single import of
ChallengeCard from the challenge-card path, the run does not produce the
byte-for-byte output the claim states: the replacement carries the captured
trailing space of the binding list, adding a second space before the closing
brace. -/
theorem C2_counterexample :
    (FixMovedImports.update_file FixMovedImports.IMPORT_FIXES c2input).1 ≠ c2claimed := by
  decide

/-- C2 amended: the rewrite changes the file (update_file returns True), the
specifier becomes the challenges path with the binding preserved, but the
output carries two spaces before the closing brace, because the regex group
captures the binding list together with its trailing whitespace and the
replacement template inserts its own space. -/
theorem C2_two_spaces :
    FixMovedImports.update_file FixMovedImports.IMPORT_FIXES c2input = (c2actual, true) := by
  decide

/-- C3 counterexample: two rules for the same specifier cannot even coexist
at run time: the dict literal collapses them to the last one, which the
engine then applies silently — the file is rewritten to the bb target and
reported changed, no planning failure occurs and the source is not left
unchanged. -/
theorem C3_counterexample :
    UpdateImports.update_file (pyDict dupPairs) dupContent = (dupResultLast, true) ∧
    (UpdateImports.update_file (pyDict dupPairs) dupContent).1 ≠ dupContent := by
  constructor
  · decide
  · decide

/-- C3 amended: the rule tables are Python dict literals, so two rules
written with the same old key never coexist: the later binding silently
overwrites the earlier at table construction, and on every file content the
engine behaves exactly as if only the last rule had been written — nothing
fails closed and no ambiguity value exists in the code. -/
theorem C3_last_binding_wins (k v1 v2 c : Str) :
    pyDict [(k, v1), (k, v2)] = [(k, v2)] ∧
    UpdateImports.update_file (pyDict [(k, v1), (k, v2)]) c =
      UpdateImports.update_file [(k, v2)] c := by
  have h : pyDict [(k, v1), (k, v2)] = [(k, v2)] := by
    simp [pyDict, dictInsert]
  exact ⟨h, by rw [h]⟩

/-- C4 counterexample: one import statement naming two bindings whose rules
target different destinations is not split: the output contains exactly one
statement (the literal "import" occurs once), still carrying both
bindings. -/
theorem C4_counterexample :
    (FixMovedImports.update_file FixMovedImports.IMPORT_FIXES c4input).1 = c4output ∧
    countOcc "import".toList c4output = 1 ∧
    countOcc "ChallengeCard, FilterPanel".toList c4output = 1 := by
  refine ⟨by decide, by decide, by decide⟩

/-- C4 amended: the whole statement is moved wholesale to the destination of
the rule whose old path matches the statement's specifier: both bindings end
up imported from the challenges path, the filter-panel rule's destination
does not appear, and the file is reported changed. -/
theorem C4_whole_statement_moved :
    FixMovedImports.update_file FixMovedImports.IMPORT_FIXES c4input = (c4output, true) ∧
    countOcc "@/components/challenges".toList c4output = 1 ∧
    countOcc "@/components/panels".toList c4output = 0 := by
  refine ⟨by decide, by decide, by decide⟩

/-- C5: a file whose entire content is a comment mentioning the
challenge-card path, with no import statement, is left byte-for-byte
unchanged and reported unmodified by the fix-moved-imports run. -/
theorem C5_comment_untouched :
    FixMovedImports.update_file FixMovedImports.IMPORT_FIXES c5input = (c5input, false) := by
  decide

/-- C6: in a single run of either updater over any file, every occurrence of
a rule's old specifier in an import form is rewritten (no pattern of any rule
matches the output) and no occurrence is rewritten more than once
(re-applying any rule's substitution to the output leaves it unchanged). -/
theorem C6_all_occurrences_rewritten (content : Str) :
    (∀ r ∈ UpdateImports.RENAMES, ∀ sh' : Shape,
      hasMatchB sh' r.1 (UpdateImports.update_file UpdateImports.RENAMES content).1 = false ∧
      subPy sh' r.1 r.2 (UpdateImports.update_file UpdateImports.RENAMES content).1 =
        (UpdateImports.update_file UpdateImports.RENAMES content).1) ∧
    (∀ r ∈ UpdateFeatureImports.PATH_UPDATES, ∀ sh', sh' = sh1 ∨ sh' = sh2 ∨ sh' = sh3 →
      hasMatchB sh' r.1
          (UpdateFeatureImports.update_file UpdateFeatureImports.PATH_UPDATES content).1 =
        false ∧
      subPy sh' r.1 r.2
          (UpdateFeatureImports.update_file UpdateFeatureImports.PATH_UPDATES content).1 =
        (UpdateFeatureImports.update_file UpdateFeatureImports.PATH_UPDATES content).1) := by
  constructor
  · intro r hr sh'
    have h := UpdateImports.update_file_noMatch UpdateImports.RENAMES tableOK_RENAMES
      content r hr sh'
    exact ⟨h, noMatch_subPy_id sh' r.1 r.2 _ h⟩
  · intro r hr sh' hsh
    have h := UpdateFeatureImports.update_file_noMatch_cnt UpdateFeatureImports.PATH_UPDATES
      tableOK_PATH_UPDATES content r hr sh' hsh
    exact ⟨h, noMatch_subPy_id sh' r.1 r.2 _ h⟩

set_option maxRecDepth 4096 in
/-- C6 witness: for the ChallengeCard rule and the absolute-import shape, the
output of the run on a concrete file has no remaining match and a repeated
substitution is the identity. -/
theorem C6_witness :
    ("ChallengeCard".toList, "challenge-card".toList) ∈ UpdateImports.RENAMES ∧
    hasMatchB sh1 "ChallengeCard".toList
        (UpdateImports.update_file UpdateImports.RENAMES c6content).1 = false :=
  ⟨by decide,
   ((C6_all_occurrences_rewritten c6content).1 ("ChallengeCard".toList,
     "challenge-card".toList) (by decide) sh1).1⟩

set_option maxRecDepth 4096 in
/-- C7 counterexample: a failing write does not leave the failing file's
content unchanged: the script opens the file in write mode, which truncates
it before anything is written, so a write that fails at once leaves the file
empty although the original content was nonempty (it is still skipped by the
count: the per-file flag is False). -/
theorem C7_counterexample :
    UpdateImports.process_file UpdateImports.RENAMES
        (c6content, FileEvent.writeFail 0) = ([], false) ∧
    c6content ≠ [] := by
  constructor
  · decide
  · decide

/-- C7 amended: a failure on one file never aborts the batch: in both driver
loops every other file is processed exactly as without the failure and the
failing file contributes nothing to the counts; a failure raised before any
write (the read, or the open for writing) leaves the file's content
unchanged; but a failure during the write itself leaves the file holding
the first n characters of the rewritten content, because the open in write
mode truncates the file first; the only record of any failure is a printed
message — the per-file return value is the same False / 0 as for an
untouched file. -/
theorem C7_failure_semantics (a b : List (Str × FileEvent)) (f : Str × FileEvent) :
    (UpdateImports.main_run UpdateImports.RENAMES (a ++ f :: b) =
      ((UpdateImports.main_run UpdateImports.RENAMES a).1 ++
          (UpdateImports.process_file UpdateImports.RENAMES f).1 ::
          (UpdateImports.main_run UpdateImports.RENAMES b).1,
       (UpdateImports.main_run UpdateImports.RENAMES a).2 +
        ((if (UpdateImports.process_file UpdateImports.RENAMES f).2 then 1 else 0) +
          (UpdateImports.main_run UpdateImports.RENAMES b).2))) ∧
    (UpdateFeatureImports.main_run UpdateFeatureImports.PATH_UPDATES (a ++ f :: b) =
      ((UpdateFeatureImports.main_run UpdateFeatureImports.PATH_UPDATES a).1 ++
          (UpdateFeatureImports.process_file UpdateFeatureImports.PATH_UPDATES f).1 ::
          (UpdateFeatureImports.main_run UpdateFeatureImports.PATH_UPDATES b).1,
       (UpdateFeatureImports.main_run UpdateFeatureImports.PATH_UPDATES a).2.1 +
        ((if 0 < (UpdateFeatureImports.process_file
              UpdateFeatureImports.PATH_UPDATES f).2 then 1 else 0) +
          (UpdateFeatureImports.main_run UpdateFeatureImports.PATH_UPDATES b).2.1),
       (UpdateFeatureImports.main_run UpdateFeatureImports.PATH_UPDATES a).2.2 +
        ((UpdateFeatureImports.process_file UpdateFeatureImports.PATH_UPDATES f).2 +
          (UpdateFeatureImports.main_run UpdateFeatureImports.PATH_UPDATES b).2.2))) ∧
    (∀ c, UpdateImports.process_file UpdateImports.RENAMES
        (c, FileEvent.readFail) = (c, false)) ∧
    (∀ c n, (UpdateImports.update_file UpdateImports.RENAMES c).2 = true →
      UpdateImports.process_file UpdateImports.RENAMES (c, FileEvent.writeFail n) =
        ((UpdateImports.update_file UpdateImports.RENAMES c).1.take n, false)) ∧
    (∀ c, UpdateFeatureImports.process_file UpdateFeatureImports.PATH_UPDATES
        (c, FileEvent.readFail) = (c, 0)) ∧
    (∀ c n,
      (UpdateFeatureImports.update_file UpdateFeatureImports.PATH_UPDATES c).1 ≠ c →
      UpdateFeatureImports.process_file UpdateFeatureImports.PATH_UPDATES
          (c, FileEvent.writeFail n) =
        ((UpdateFeatureImports.update_file
            UpdateFeatureImports.PATH_UPDATES c).1.take n, 0)) := by
  refine ⟨?_, ?_, fun c => rfl, fun c n h => ?_, fun c => rfl, fun c n h => ?_⟩
  · induction a with
    | nil => simp [UpdateImports.main_run]
    | cons x a' ih =>
      rw [List.cons_append, main_run_cons_eq, ih, main_run_cons_eq]
      simp [Nat.add_assoc]
  · induction a with
    | nil => simp [UpdateFeatureImports.main_run]
    | cons x a' ih =>
      rw [List.cons_append, fmain_run_cons_eq, ih, fmain_run_cons_eq]
      simp [Nat.add_assoc]
  · simp [UpdateImports.process_file, h]
  · simp [UpdateFeatureImports.process_file, h]

/-- C8 counterexample: the binding-name derivation does not fail on a stem
with characters outside the letters-digits-dashes alphabet: there is no
InvalidIdentifier anywhere in the code, and on the stem with an underscore
and a question mark it returns a plain name with the foreign characters
passed through. -/
theorem C8_counterexample :
    FixMovedImports.pascal_name "ai_panel?".toList = "Ai_panel?".toList := by
  decide

/-- C8 amended: the derivation is a pure, deterministic, total function on
every stem (it never fails); it removes every dash, and on conforming
dash-separated lowercase stems it produces the capitalized-concatenated
binding name. -/
theorem C8_total_derivation :
    (∀ stem : Str,
      (FixMovedImports.pascal_name stem).all (fun c => !(c == '-')) = true) ∧
    FixMovedImports.pascal_name "ai-assistant-panel".toList = "AiAssistantPanel".toList := by
  constructor
  · intro stem
    rw [List.all_eq_true]
    intro c hc
    simp only [Bool.not_eq_true', beq_eq_false_iff_ne]
    exact pascal_name_no_dash stem c hc
  · decide

/-- C9 counterexample: in the RENAMES table, VeracityTimeline does not map to
veracity-badge: it maps to veracity-timeline. -/
theorem C9_counterexample :
    List.lookup "VeracityTimeline".toList UpdateImports.RENAMES =
      some "veracity-timeline".toList ∧
    "veracity-timeline".toList ≠ "veracity-badge".toList := by
  constructor
  · decide
  · decide

/-- C9 amended: the two distinct old names that collapse into the same
replacement specifier veracity-badge are VeracityBadge and VeracityPanel. -/
theorem C9_collapsed_pair :
    List.lookup "VeracityBadge".toList UpdateImports.RENAMES =
      some "veracity-badge".toList ∧
    List.lookup "VeracityPanel".toList UpdateImports.RENAMES =
      some "veracity-badge".toList ∧
    "VeracityBadge".toList ≠ "VeracityPanel".toList := by
  refine ⟨by decide, by decide, by decide⟩

set_option maxRecDepth 16384 in
/-- C10: the feature-path updater's per-file count tallies rule-pattern
combinations, not occurrences: it never exceeds three per table rule, and on
a file with two occurrences of the same rule's pattern it reports 1 while
the output shows both occurrences rewritten. -/
theorem C10_count_rules_not_occurrences :
    (∀ content : Str,
      (UpdateFeatureImports.update_file UpdateFeatureImports.PATH_UPDATES content).2 ≤
        3 * UpdateFeatureImports.PATH_UPDATES.length) ∧
    UpdateFeatureImports.update_file UpdateFeatureImports.PATH_UPDATES c10input =
      (c10output, 1) ∧
    countOcc "shared/logo".toList c10output = 2 := by
  refine ⟨fun content => UpdateFeatureImports.update_file_count_le _ content, by decide,
    by decide⟩

end ImportRewrite
